import Mathlib

/-!
Verification development for the ashley-ai assistant repository.

The definitions below are shallow embeddings of the Python functions in
`nlp_processor.py`, `rag_system.py`, `main.py` and `alarm.py`:

* pure string processing is modelled on `List Char` / `String`;
* Python `float` confidence values are modelled as `ℚ` (only comparisons
  and `max` are performed on them, so the rational model is faithful);
* the spaCy pipeline and the transformer zero-shot classifier are external
  ML collaborators and are passed in as oracle parameters;
* case mapping is modelled for ASCII (all data in the repository is ASCII);
* the regular expressions used by the code are implemented directly as
  deterministic scanners with the same backtracking semantics.
-/

set_option maxRecDepth 10000

/-- ASCII whitespace set used by Python `str.strip`, `str.split` and `\s`. -/
def isWsC (c : Char) : Bool :=
  c == ' ' || c == '\t' || c == '\n' || c == '\r' || c == '\x0b' || c == '\x0c'

/-- Terminal punctuation characters stripped by `preprocess_text` (`[.!?]+$`). -/
def isPunctC (c : Char) : Bool :=
  c == '.' || c == '!' || c == '?'

/-- ASCII decimal digit (`\d`). -/
def isDigitC (c : Char) : Bool :=
  '0' ≤ c && c ≤ '9'

/-- ASCII lower-casing of a single character (Python `str.lower` on ASCII data). -/
def lowerC (c : Char) : Char :=
  if 'A' ≤ c ∧ c ≤ 'Z' then Char.ofNat (c.toNat + 32) else c

/-- Lower-case a character list. -/
def lowerL (s : List Char) : List Char := s.map lowerC

/-- Python `str.strip`: drop whitespace from both ends. -/
def stripL (s : List Char) : List Char :=
  ((s.dropWhile isWsC).reverse.dropWhile isWsC).reverse

/-- Worker for `collapseL`; the flag records whether the previous character
was inside a whitespace run (so only the first character of a run emits the
single replacement space). -/
def collapseAux : Bool → List Char → List Char
  | _, [] => []
  | inWs, c :: cs =>
    if isWsC c then
      if inWs then collapseAux true cs else ' ' :: collapseAux true cs
    else c :: collapseAux false cs

/-- Python `re.sub(r'\s+', ' ', s)`: replace each maximal whitespace run
by a single space. -/
def collapseL (s : List Char) : List Char := collapseAux false s

/-- Python `re.sub(r'[.!?]+$', '', s)`: drop the maximal trailing run of
terminal punctuation. -/
def punctStripL (s : List Char) : List Char :=
  (s.reverse.dropWhile isPunctC).reverse

/-- Fuel-driven worker for `replC`.  Each step consumes at least one
character of the subject string, so any fuel `≥ s.length` gives the
replace-all semantics of Python `str.replace`. -/
def replF (k e : List Char) : List Char → ℕ → List Char
  | [], _ => []
  | c :: cs, 0 => c :: cs
  | c :: cs, fuel + 1 =>
    if k ≠ [] ∧ k.isPrefixOf (c :: cs) then
      e ++ replF k e ((c :: cs).drop k.length) fuel
    else
      c :: replF k e cs fuel

/-- Python `str.replace pat rep`: replace every (leftmost, non-overlapping)
occurrence of `k` by `e`.  All callers use a non-empty `k`; the `k ≠ []`
guard only rules out the degenerate empty pattern. -/
def replC (k e : List Char) (s : List Char) : List Char :=
  replF k e s s.length

/-- The contraction table of `preprocess_text`, in Python dict insertion order. -/
def CONTRACTIONS : List (String × String) :=
  [("i'm", "i am"), ("you're", "you are"), ("he's", "he is"), ("she's", "she is"),
   ("it's", "it is"), ("we're", "we are"), ("they're", "they are"),
   ("don't", "do not"), ("doesn't", "does not"), ("didn't", "did not"),
   ("won't", "will not"), ("can't", "cannot"), ("couldn't", "could not"),
   ("shouldn't", "should not"), ("wouldn't", "would not"), ("haven't", "have not"),
   ("hasn't", "has not"), ("hadn't", "had not"), ("isn't", "is not"),
   ("aren't", "are not"), ("wasn't", "was not"), ("weren't", "were not")]

/-- The contraction-expansion loop of `preprocess_text`. -/
def expandL (s : List Char) : List Char :=
  CONTRACTIONS.foldl (fun t p => replC p.1.data p.2.data t) s

/-- `preprocess_text` on character lists: lower-case, strip, collapse
whitespace runs, strip trailing terminal punctuation, expand contractions. -/
def ppL (s : List Char) : List Char :=
  if s = [] then [] else expandL (punctStripL (collapseL (stripL (lowerL s))))

/-- `nlp_processor.preprocess_text`. -/
def preprocess_text (s : String) : String :=
  ⟨ppL s.data⟩

example : preprocess_text "I'm doing GREAT!!!" = "i am doing great" := by decide
example : preprocess_text "hi ." = "hi " := by decide
example : preprocess_text "hi " = "hi" := by decide

/-! ### difflib.SequenceMatcher (ratio), used by `calculate_similarity_score`

`SequenceMatcher(None, a, b).ratio()` computes `2*M/T` where `M` is the total
size of the matching blocks found by the Ratcliff/Obershelp recursion and
`T = len(a) + len(b)`.  The autojunk heuristic only activates for second
arguments of length ≥ 200, which never happens for the intent patterns of
this repository, so it is not modelled. -/

/-- Length of the common run `a[i:ahi] = b[j:bhi]` starting at `(i, j)`,
stopping at the first mismatch or at a range bound. -/
def commonRun (a b : List Char) (ahi bhi : ℕ) : ℕ → ℕ → ℕ → ℕ
  | _, _, 0 => 0
  | i, j, fuel + 1 =>
    if i < ahi ∧ j < bhi ∧ a.getD i ' ' = b.getD j ' ' then
      1 + commonRun a b ahi bhi (i + 1) (j + 1) fuel
    else 0

/-- All start pairs of the search window, in the scan order of
`SequenceMatcher.find_longest_match` (increasing `i`, then `j`). -/
def blockPairs (alo ahi blo bhi : ℕ) : List (ℕ × ℕ) :=
  (List.range' alo (ahi - alo)).flatMap fun i =>
    (List.range' blo (bhi - blo)).map fun j => (i, j)

/-- `find_longest_match` on the window `[alo,ahi) × [blo,bhi)`: the longest
common block, keeping the first (smallest `i`, then smallest `j`) among
blocks of maximal length — exactly the block difflib's scan retains. -/
def bestBlock (a b : List Char) (alo ahi blo bhi : ℕ) : ℕ × ℕ × ℕ :=
  (blockPairs alo ahi blo bhi).foldl
    (fun best p =>
      let k := commonRun a b ahi bhi p.1 p.2 (ahi - p.1)
      if best.2.2 < k then (p.1, p.2, k) else best)
    (alo, blo, 0)

/-- Total matched size of the Ratcliff/Obershelp recursion
(`get_matching_blocks` without the sentinel).  The fuel is at least the
total window size plus one at every call, which the recursion preserves. -/
def matchTot (a b : List Char) : ℕ → ℕ → ℕ → ℕ → ℕ → ℕ
  | 0, _, _, _, _ => 0
  | fuel + 1, alo, ahi, blo, bhi =>
    let q := bestBlock a b alo ahi blo bhi
    if q.2.2 = 0 then 0
    else
      q.2.2 + matchTot a b fuel alo q.1 blo q.2.1 +
        matchTot a b fuel (q.1 + q.2.2) ahi (q.2.1 + q.2.2) bhi

/-- Exact rational addition in kernel-computable form (`Rat.add` is
irreducible in this toolchain; `qadd_eq` below shows agreement with `+`). -/
def qadd (a b : ℚ) : ℚ := mkRat (a.num * b.den + b.num * a.den) (a.den * b.den)

/-- Exact rational multiplication in kernel-computable form (see `qmul_eq`). -/
def qmul (a b : ℚ) : ℚ := mkRat (a.num * b.num) (a.den * b.den)

/-- `difflib.SequenceMatcher(None, a, b).ratio()`. -/
def seqRatio (a b : List Char) : ℚ :=
  let t := a.length + b.length
  if t = 0 then mkRat 1 1
  else mkRat (2 * (matchTot a b (t + 1) 0 a.length 0 b.length : ℤ)) t

/-! ### Pattern scorer: `calculate_similarity_score` -/

/-- Worker for Python `str.split()` (split on whitespace runs, dropping
empty pieces); `cur` holds the current word reversed. -/
def splitAux (cur : List Char) : List Char → List (List Char)
  | [] => if cur = [] then [] else [cur.reverse]
  | c :: cs =>
    if isWsC c then
      if cur = [] then splitAux [] cs else cur.reverse :: splitAux [] cs
    else splitAux (c :: cur) cs

/-- Python `str.split()`. -/
def wordsSplit (s : List Char) : List (List Char) := splitAux [] s

/-- Python `set(s.split())` (the string is lower-cased by the callers). -/
def wordFinset (s : List Char) : Finset (List Char) := (wordsSplit s).toFinset

/-- Substring test, Python `a in s` for strings. -/
def isSubL (a : List Char) : List Char → Bool
  | [] => a.isEmpty
  | c :: t => a.isPrefixOf (c :: t) || isSubL a t

/-- Per-pattern contribution as accumulated by the loop body of
`calculate_similarity_score`: Jaccard similarity of the lower-cased word
sets, `+0.3` for a case-insensitive substring hit, `+ratio*0.2` when the
character-level ratio exceeds `0.7`; a pattern whose word-set union is
empty never updates the accumulator, which the `none` result records. -/
def patternScore (tl : List Char) (tw : Finset (List Char)) (p : String) : Option ℚ :=
  let pl := lowerL p.data
  let pw := wordFinset pl
  let uni := tw ∪ pw
  if uni = ∅ then none
  else
    let j1 : ℚ := mkRat ((tw ∩ pw).card : ℤ) uni.card
    let j2 := if isSubL pl tl then qadd j1 (mkRat 3 10) else j1
    let f := seqRatio tl pl
    some (if mkRat 7 10 < f then qadd j2 (qmul f (mkRat 2 10)) else j2)

/-- `nlp_processor.calculate_similarity_score`. -/
def calculate_similarity_score (text : String) (patterns : List String) : ℚ :=
  if text = "" ∨ patterns = [] then 0
  else
    let tl := lowerL text.data
    let tw := wordFinset tl
    patterns.foldl
      (fun maxScore p =>
        match patternScore tl tw p with
        | some sc => max maxScore sc
        | none => maxScore)
      0

example : calculate_similarity_score "hello" ["hello"] = mkRat 3 2 := by decide
example : calculate_similarity_score " " [" "] = 0 := by decide
example : calculate_similarity_score "search for tutorials" ["search for"] = mkRat 29 30 := by decide

/-! ### Entity extractor: `extract_entities`

The spaCy `doc.ents` named-entity pass is an ML collaborator; it is passed
in as an oracle of type `String → List (String × String)` (entity text and
label), wrapped in `Option` to model the degraded mode where the model is
not loaded (`nlp = None`). -/

/-- The five entity lists built by `extract_entities` (Python dict keys
`location`, `time`, `app_name`, `search_query`, `alarm_time`). -/
structure EntityMap where
  location : List String
  time : List String
  app_name : List String
  search_query : List String
  alarm_time : List String
deriving DecidableEq, Repr

/-- The all-empty entity map the function starts from. -/
def emptyEntities : EntityMap := ⟨[], [], [], [], []⟩

/-- The fixed search-trigger keywords. -/
def search_keywords : List String :=
  ["search", "find", "look up", "google", "youtube", "wikipedia"]

/-- Greedy `(.+)` of the search regex: the maximal non-newline run, which
must be non-empty. -/
def dotPlus (s : List Char) : Option (List Char) :=
  let g := s.takeWhile (fun c => c ≠ '\n')
  if g = [] then none else some g

/-- Try `f` after dropping `i, i-1, …, 1` whitespace characters (the
backtracking order of a greedy `\s+` whose tail may fail). -/
def tryWsThen {α : Type} (f : List Char → Option α) (s : List Char) : ℕ → Option α
  | 0 => none
  | i + 1 =>
    match f (s.drop (i + 1)) with
    | some r => some r
    | none => tryWsThen f s i

/-- `\s+(.+)` after the literal `for` of the optional group. -/
def afterFor (s : List Char) : Option (List Char) :=
  tryWsThen dotPlus s (s.takeWhile isWsC).length

/-- One candidate position of the `(?:for\s+)?(.+)` part: the greedy
optional `for\s+` is tried before being skipped. -/
def kwTailStep (p : List Char) : Option (List Char) :=
  match (if ("for".data).isPrefixOf p then afterFor (p.drop 3) else none) with
  | some r => some r
  | none => dotPlus p

/-- `\s+(?:for\s+)?(.+)`: the tail of the search regex after the keyword. -/
def kwTail (s : List Char) : Option (List Char) :=
  tryWsThen kwTailStep s (s.takeWhile isWsC).length

/-- Match the search regex `kw\s+(?:for\s+)?(.+)` at the current position. -/
def matchKw (kw : List Char) (s : List Char) : Option (List Char) :=
  if kw.isPrefixOf s then kwTail (s.drop kw.length) else none

/-- `re.search`: first position (left to right) where the matcher succeeds. -/
def searchPos {α : Type} (m : List Char → Option α) : List Char → Option α
  | [] => m []
  | c :: t =>
    match m (c :: t) with
    | some r => some r
    | none => searchPos m (c :: t).tail

/-- `re.search(rf"kw\s+(?:for\s+)?(.+)", text)`, group 1. -/
def searchQueryFor (kw : List Char) (s : List Char) : Option (List Char) :=
  searchPos (matchKw kw) s

/-- Fuel-driven worker for `scanAll`; every emitted match consumes at least
one character, so fuel `s.length` suffices. -/
def scanAllF {α : Type} (m : List Char → Option (ℕ × α)) : List Char → ℕ → List α
  | _, 0 => []
  | [], _ => []
  | c :: t, fuel + 1 =>
    match m (c :: t) with
    | some (n, v) => v :: scanAllF m ((c :: t).drop (max n 1)) fuel
    | none => scanAllF m t fuel

/-- `re.findall`: leftmost, non-overlapping matches, scanning left to right.
All matchers used here consume at least one character (`max n 1` only
guards the degenerate case). -/
def scanAll {α : Type} (m : List Char → Option (ℕ × α)) (s : List Char) : List α :=
  scanAllF m s s.length

/-- `(\d{1,2}:\d{2})` at the current position: one or two digits (greedy),
a colon, exactly two digits.  Returns consumed length and the group. -/
def matchHM (s : List Char) : Option (ℕ × List Char) :=
  match s with
  | d1 :: d2 :: rest =>
    if isDigitC d1 then
      if isDigitC d2 then
        -- two hour digits; backtracking to one digit cannot help because
        -- the colon would have to sit where the digit d2 is
        match rest with
        | c :: m1 :: m2 :: _ =>
          if c = ':' ∧ isDigitC m1 ∧ isDigitC m2 then
            some (5, [d1, d2, ':', m1, m2])
          else none
        | _ => none
      else
        match rest with
        | m1 :: m2 :: _ =>
          if d2 = ':' ∧ isDigitC m1 ∧ isDigitC m2 then
            some (4, [d1, ':', m1, m2])
          else none
        | _ => none
    else none
  | _ => none

/-- `at\s+(\d{1,2}:\d{2})` at the current position (case-insensitive `at`). -/
def matchAtHM (s : List Char) : Option (ℕ × List Char) :=
  match s with
  | c0 :: c1 :: rest =>
    if lowerC c0 = 'a' ∧ lowerC c1 = 't' then
      let ws := rest.takeWhile isWsC
      if ws = [] then none
      else
        match matchHM (rest.drop ws.length) with
        | some (n, g) => some (2 + ws.length + n, g)
        | none => none
    else none
  | _ => none

/-- `(am|pm)` at the current position, case-insensitively, keeping the
original characters. -/
def matchAmPm (s : List Char) : Option (ℕ × List Char) :=
  match s with
  | a :: m :: _ =>
    if (lowerC a = 'a' ∨ lowerC a = 'p') ∧ lowerC m = 'm' then some (2, [a, m])
    else none
  | _ => none

/-- `(a\.m\.|p\.m\.)` at the current position, case-insensitively. -/
def matchAmPmDots (s : List Char) : Option (ℕ × List Char) :=
  match s with
  | a :: p1 :: m :: p2 :: _ =>
    if (lowerC a = 'a' ∨ lowerC a = 'p') ∧ p1 = '.' ∧ lowerC m = 'm' ∧ p2 = '.' then
      some (4, [a, p1, m, p2])
    else none
  | _ => none

/-- `\s*` then `ap` (a deterministic greedy star: the target tokens are
never whitespace, so only the maximal drop can match). -/
def wsStarThen (ap : List Char → Option (ℕ × List Char)) (s : List Char) :
    Option (ℕ × List Char) :=
  let ws := s.takeWhile isWsC
  match ap (s.drop ws.length) with
  | some (n, g) => some (ws.length + n, g)
  | none => none

/-- `(\d{1,2})\s*(am|pm)` (or, with `dots`, `(a\.m\.|p\.m\.)`): the two
groups are rendered as in Python `" ".join(match)`.  After two digits the
one-digit backtrack cannot succeed because the second digit can be neither
whitespace nor `a`/`p`. -/
def matchDigitsAmPm (ap : List Char → Option (ℕ × List Char)) (s : List Char) :
    Option (ℕ × List Char) :=
  match s with
  | d1 :: rest1 =>
    if isDigitC d1 then
      match rest1 with
      | d2 :: rest2 =>
        if isDigitC d2 then
          match wsStarThen ap rest2 with
          | some (n, g) => some (2 + n, [d1, d2, ' '] ++ g)
          | none => none
        else
          match wsStarThen ap rest1 with
          | some (n, g) => some (1 + n, [d1, ' '] ++ g)
          | none => none
      | [] => none
    else none
  | [] => none

/-- `nlp_processor.extract_entities`.  When the spaCy model is unavailable
(`nlp = None`) the function returns the freshly initialised empty map
before any extraction runs. -/
def extract_entities (nlpO : Option (String → List (String × String)))
    (text : String) : EntityMap :=
  match nlpO with
  | none => emptyEntities
  | some ner =>
    let ents := ner text
    let loc := ents.filterMap fun e =>
      if e.2 = "GPE" ∨ e.2 = "LOC" then some e.1 else none
    let tim := ents.filterMap fun e =>
      if e.2 = "TIME" ∨ e.2 = "DATE" then some e.1 else none
    let app := ents.filterMap fun e =>
      if e.2 = "PERSON" then some e.1 else none
    let tl := text.data
    let sq := search_keywords.foldl
      (fun acc kw =>
        if isSubL kw.data tl then
          match searchQueryFor kw.data tl with
          | some g => acc ++ [(⟨stripL g⟩ : String)]
          | none => acc
        else acc)
      []
    let a1 := scanAll matchAtHM tl
    let a2 := scanAll matchHM tl
    let a3 := scanAll (matchDigitsAmPm matchAmPm) tl
    let a4 := scanAll (matchDigitsAmPm matchAmPmDots) tl
    ⟨loc, tim, app, sq, (a1 ++ a2 ++ a3 ++ a4).map fun g => (⟨g⟩ : String)⟩

/-- A trivial NER oracle (no recognised entities), used in examples. -/
def noNer : String → List (String × String) := fun _ => []

example :
    (extract_entities (some noNer) "set alarm at 10:30").alarm_time =
      ["10:30", "10:30"] := by decide
example :
    (extract_entities (some noNer) "search for cats").search_query =
      ["cats"] := by decide
example :
    (extract_entities (some noNer) "remind me at 3 pm").alarm_time =
      ["3 pm"] := by decide
example : extract_entities none "search for cats at 10:30" = emptyEntities := by
  decide

/-! ### Hybrid intent classifier and context resolver

`get_intent_spacy_simple` (the lexical strategy, which needs the spaCy
POS/lemma pipeline) and `get_intent_transformer` (the zero-shot secondary
strategy) are ML collaborators; they enter as oracles
`sp : String → String` and `tr : String → String × ℚ`.  The combination
logic of `get_intent_hybrid` / `get_intent_with_context` is embedded
exactly. -/

/-- `nlp_processor.get_intent_hybrid`.  On empty normalized text Python
returns `("unknown", 0.0, {})`; the empty dict is modelled by
`emptyEntities` (no claim inspects the entities of that branch). -/
def get_intent_hybrid (sp : String → String) (tr : String → String × ℚ)
    (nlpO : Option (String → List (String × String))) (text : String) :
    String × ℚ × EntityMap :=
  let t := preprocess_text text
  if t = "" then ("unknown", 0, emptyEntities)
  else
    let s := sp t
    let tc := tr t
    let es := extract_entities nlpO t
    if s = tc.1 ∧ s ≠ "unknown" then (s, max (mkRat 8 10) tc.2, es)
    else if mkRat 7 10 < tc.2 then (tc.1, tc.2, es)
    else if s ≠ "unknown" then (s, mkRat 6 10, es)
    else ("unknown", 0, es)

/-- The fixed follow-up trigger table of `get_intent_with_context`. -/
def follow_up_patterns : List (String × List String) :=
  [("search_google", ["more about", "tell me more", "additional info", "more details"]),
   ("weather", ["in another city", "different location", "somewhere else"]),
   ("set_alarm", ["for tomorrow", "next week", "different time"]),
   ("open_app", ["another app", "different program", "something else"])]

/-- `nlp_processor.get_intent_with_context`: hybrid classification, then the
follow-up override when the result is `"unknown"` and history is present. -/
def get_intent_with_context (sp : String → String) (tr : String → String × ℚ)
    (nlpO : Option (String → List (String × String))) (text : String)
    (history : List String) : String × ℚ × EntityMap :=
  let r := get_intent_hybrid sp tr nlpO text
  if history ≠ [] ∧ r.1 = "unknown" then
    let lastIntent := (get_intent_hybrid sp tr nlpO (history.getLastD "")).1
    match follow_up_patterns.lookup lastIntent with
    | some pats =>
      match pats.find? (fun p => isSubL p.data (lowerL text.data)) with
      | some _ => (lastIntent, mkRat 7 10, r.2.2)
      | none => r
    | none => r
  else r

/-! ### Dispatcher (`main.assistant_loop` intent branch) and generative fallback -/

/-- The action selected by the `if`/`elif` chain of `assistant_loop`; one
constructor per branch, `fallbackAction` for the final `else`. -/
inductive DispatchAction where
  | exitLoop
  | greet
  | identity
  | smalltalk
  | googleSearch
  | youtubeSearch
  | wikipediaSearch
  | weatherInfo
  | timeDate
  | openApp
  | closeApp
  | alarmManage
  | helpInfo
  | repeatLast
  | fallbackAction
deriving DecidableEq, Repr

/-- The intent-to-action chain of `assistant_loop`, in source order. -/
def dispatchAction (intent : String) : DispatchAction :=
  if intent = "exit" then .exitLoop
  else if intent ∈ ["greet", "smalltalk_hello"] then .greet
  else if intent ∈ ["get_name", "get_capabilities"] then .identity
  else if intent ∈ ["smalltalk_howareyou", "smalltalk_ok", "thanks", "compliment"] then
    .smalltalk
  else if intent ∈ ["search_google", "general_search"] then .googleSearch
  else if intent = "search_youtube" then .youtubeSearch
  else if intent = "search_wikipedia" then .wikipediaSearch
  else if intent ∈ ["temperature", "weather", "weather_extended"] then .weatherInfo
  else if intent ∈ ["get_time", "get_date", "get_datetime"] then .timeDate
  else if intent ∈ ["open_app", "app_control"] then .openApp
  else if intent = "close_app" then .closeApp
  else if intent ∈ ["set_alarm", "list_alarms", "cancel_alarm"] then .alarmManage
  else if intent = "help" then .helpInfo
  else if intent = "repeat" then .repeatLast
  else .fallbackAction

/-- The 27 intent tags with a dedicated branch in `assistant_loop`. -/
def handledIntents : List String :=
  ["exit", "greet", "smalltalk_hello", "get_name", "get_capabilities",
   "smalltalk_howareyou", "smalltalk_ok", "thanks", "compliment",
   "search_google", "general_search", "search_youtube", "search_wikipedia",
   "temperature", "weather", "weather_extended", "get_time", "get_date",
   "get_datetime", "open_app", "app_control", "close_app", "set_alarm",
   "list_alarms", "cancel_alarm", "help", "repeat"]

/-- The fallback branch of `assistant_loop`: speak the collaborator's
answer when one came back, otherwise the literal apology.
`fallback_openrouter_gpt5` returns `None` on any service error or
non-success HTTP status, which is the `none` case here. -/
def fallbackResponse (r : Option String) : String :=
  match r with
  | some answer => answer
  | none => "I couldn't find an answer to that."

example : dispatchAction "unknown" = .fallbackAction := by decide
example : dispatchAction "get_age" = .fallbackAction := by decide
example : dispatchAction "weather" = .weatherInfo := by decide

/-! ### Knowledge retriever: `rag_system.AssistantRAG` -/

/-- Word character of `\w` (ASCII letters, digits, underscore). -/
def isWordC (c : Char) : Bool :=
  ('a' ≤ c && c ≤ 'z') || ('A' ≤ c && c ≤ 'Z') || isDigitC c || c == '_'

/-- Worker extracting the maximal `\w+` runs (`re.findall(r'\b\w+\b', s)`);
`cur` holds the current run reversed. -/
def wordRunsAux (cur : List Char) : List Char → List (List Char)
  | [] => if cur = [] then [] else [cur.reverse]
  | c :: cs =>
    if isWordC c then wordRunsAux (c :: cur) cs
    else if cur = [] then wordRunsAux [] cs
    else cur.reverse :: wordRunsAux [] cs

/-- `set(re.findall(r'\b\w+\b', s.lower()))`. -/
def ragWords (s : String) : Finset (List Char) :=
  (wordRunsAux [] (lowerL s.data)).toFinset

/-- `AssistantRAG._calculate_relevance_score`: Jaccard word overlap between
query and content, `0` for a word-free query. -/
def relevance_score (query content : String) : ℚ :=
  let qw := ragWords query
  let cw := ragWords content
  if qw = ∅ then 0
  else
    let uni := qw ∪ cw
    if uni ≠ ∅ then mkRat ((qw ∩ cw).card : ℤ) uni.card else 0

/-- One positively-scored knowledge section: name, joined content, score. -/
structure ScoredSection where
  name : String
  content : String
  score : ℚ
deriving Repr

/-- Python `sep.join(parts)`. -/
def sjoin (sep : String) : List String → String
  | [] => ""
  | [x] => x
  | x :: y :: rest => x ++ sep ++ sjoin sep (y :: rest)

/-- Stable descending insertion by score: an element moves left past
strictly smaller scores only, which reproduces Python's stable
`sort(key=score, reverse=True)`. -/
def insertDesc (x : ScoredSection) : List ScoredSection → List ScoredSection
  | [] => [x]
  | y :: ys => if y.score < x.score then x :: y :: ys else y :: insertDesc x ys

/-- Stable sort by descending score (equal scores keep list order). -/
def sortDesc : List ScoredSection → List ScoredSection
  | [] => []
  | x :: xs => insertDesc x (sortDesc xs)

/-- The scored, positively-relevant sections of the knowledge base, in
knowledge-base order (the Python loop plus the `score > 0` filter). -/
def scoredSections (kb : List (String × List String)) (query : String) :
    List ScoredSection :=
  kb.filterMap fun sec =>
    let content := sjoin " " sec.2
    let sc := relevance_score query content
    if 0 < sc then some ⟨sec.1, content, sc⟩ else none

/-- The `f"{section}: {content}"` rendering of one scored section. -/
def sectionText (it : ScoredSection) : String :=
  it.name ++ ": " ++ it.content

/-- The context-building loop of `retrieve_context`: add whole section
texts while they fit the remaining budget; at the first text that does not
fit, keep a raw character-offset slice plus `"..."` when more than 50
characters of budget remain, then stop. -/
def buildParts (maxLen : ℕ) : List ScoredSection → ℕ → List String
  | [], _ => []
  | item :: rest, cur =>
    let st := sectionText item
    if cur + st.length ≤ maxLen then st :: buildParts maxLen rest (cur + st.length)
    else if 50 < maxLen - cur then [(⟨st.data.take (maxLen - cur)⟩ : String) ++ "..."]
    else []

/-- `AssistantRAG.retrieve_context` (default budget 500 characters).  The
knowledge base is the parsed section map, in file order. -/
def retrieve_context (kb : List (String × List String)) (query : String)
    (maxLen : ℕ := 500) : String :=
  if kb = [] then ""
  else sjoin " | " (buildParts maxLen (sortDesc (scoredSections kb query)) 0)

example :
    retrieve_context [("Identity", ["I am Ashley", "an assistant"])] "who is ashley" =
      "Identity: I am Ashley an assistant" := by decide
example : retrieve_context [("Identity", ["I am Ashley"])] "quantum turnips" = "" := by
  decide

/-! ### Alarm collaborator: `alarm.parse_voice_time` / `alarm.set_alarm_voice`

Datetimes are modelled at minute precision as calendar tuples; every value
lives in the single timezone (IST) the module uses, so localisation is the
identity.  The two `datetime.now(IST)` reads of a voice-alarm turn are
modelled as the same instant `now`.  Python `datetime.replace` raises
`ValueError` on out-of-range fields, which `set_alarm_voice` swallows with
its generic error message; that path is the `errored` outcome. -/

/-- A calendar date-time at minute precision. -/
structure DT where
  year : ℕ
  month : ℕ
  day : ℕ
  hour : ℕ
  minute : ℕ
deriving DecidableEq, Repr

/-- Radix encoding that is strictly monotone in lexicographic field order
for in-range fields (all compared values are validated), so `≤` on keys is
the `datetime` order. -/
def dtKey (t : DT) : ℕ :=
  (((t.year * 100 + t.month) * 100 + t.day) * 100 + t.hour) * 100 + t.minute

/-- Gregorian leap year. -/
def isLeap (y : ℕ) : Bool :=
  y % 4 = 0 && (y % 100 ≠ 0 || y % 400 = 0)

/-- Days in a month of the Gregorian calendar. -/
def daysInMonth (y mo : ℕ) : ℕ :=
  if mo = 2 then (if isLeap y then 29 else 28)
  else if mo ∈ [4, 6, 9, 11] then 30
  else 31

/-- `+ timedelta(days=1)` on the calendar fields. -/
def addOneDayD (t : DT) : DT :=
  if t.day < daysInMonth t.year t.month then { t with day := t.day + 1 }
  else if t.month < 12 then { t with month := t.month + 1, day := 1 }
  else { t with year := t.year + 1, month := 1, day := 1 }

/-- `+ timedelta(days=n)`. -/
def addDaysD (t : DT) : ℕ → DT
  | 0 => t
  | n + 1 => addDaysD (addOneDayD t) n

/-- `+ timedelta(minutes=n)` (hour/day carries included). -/
def addMinutesD (t : DT) (n : ℕ) : DT :=
  let total := t.minute + n
  let hrs := t.hour + total / 60
  addDaysD { t with hour := hrs % 24, minute := total % 60 } (hrs / 24)

/-- The shared 12-hour conversion of `parse_voice_time`. -/
def conv12 (h : ℕ) (pm : Bool) : ℕ :=
  if pm ∧ h ≠ 12 then h + 12
  else if ¬ pm ∧ h = 12 then 0
  else h

/-- Numeric value of a digit string. -/
def digitsVal (l : List Char) : ℕ :=
  l.foldl (fun a c => 10 * a + (c.toNat - 48)) 0

/-- Exactly `n` digits. -/
def digitsN : ℕ → List Char → Option (List Char × List Char)
  | 0, s => some ([], s)
  | _ + 1, [] => none
  | n + 1, c :: cs =>
    if isDigitC c then
      match digitsN n cs with
      | some (d, r) => some (c :: d, r)
      | none => none
    else none

/-- `\d{1,2}` by maximal munch (equivalent to greedy-with-backtracking at
every use site here, where the next token can never be a digit). -/
def digits12 : List Char → Option (List Char × List Char)
  | [] => none
  | c :: cs =>
    if isDigitC c then
      match cs with
      | d :: ds => if isDigitC d then some ([c, d], ds) else some ([c], cs)
      | [] => some ([c], [])
    else none

/-- A single literal character. -/
def litC (c : Char) : List Char → Option (List Char)
  | [] => none
  | x :: xs => if x = c then some xs else none

/-- `\s+` (greedy; the following tokens are never whitespace). -/
def ws1Plus (s : List Char) : Option (List Char) :=
  let w := s.takeWhile isWsC
  if w = [] then none else some (s.drop w.length)

/-- `(am|pm)` on the lower-cased alarm input; `true` means `pm`. -/
def ampmTok : List Char → Option (Bool × List Char)
  | a :: m :: r =>
    if (a = 'a' ∨ a = 'p') ∧ m = 'm' then some (a = 'p', r) else none
  | _ => none

/-- Pattern 1 `(\d{4}-\d{2}-\d{2})\s+(\d{1,2}):(\d{2})\s*(am|pm)` at the
current position: numeric groups `(year, month, day, hour12, minute, pm)`. -/
def matchP1 (s : List Char) : Option (ℕ × ℕ × ℕ × ℕ × ℕ × Bool) :=
  (digitsN 4 s).bind fun (y, r1) =>
  (litC '-' r1).bind fun r2 =>
  (digitsN 2 r2).bind fun (mo, r3) =>
  (litC '-' r3).bind fun r4 =>
  (digitsN 2 r4).bind fun (d, r5) =>
  (ws1Plus r5).bind fun r6 =>
  (digits12 r6).bind fun (h, r7) =>
  (litC ':' r7).bind fun r8 =>
  (digitsN 2 r8).bind fun (mi, r9) =>
  (ampmTok (r9.drop (r9.takeWhile isWsC).length)).bind fun (pm, _) =>
  some (digitsVal y, digitsVal mo, digitsVal d, digitsVal h, digitsVal mi, pm)

/-- `\s*(am|pm)` (deterministic: `a`/`p` are not whitespace). -/
def wsStarAmPm (s : List Char) : Option Bool :=
  match ampmTok (s.drop (s.takeWhile isWsC).length) with
  | some (pm, _) => some pm
  | none => none

/-- `(\d{2})?\s*(am|pm)`: greedy optional minutes, with backtracking (a
missing minute group yields 0, as in the Python `or 0` default). -/
def tmOptMin (s : List Char) : Option (ℕ × Bool) :=
  match digitsN 2 s with
  | some (mi, r) =>
    match wsStarAmPm r with
    | some pm => some (digitsVal mi, pm)
    | none =>
      match wsStarAmPm s with
      | some pm => some (0, pm)
      | none => none
  | none =>
    match wsStarAmPm s with
    | some pm => some (0, pm)
    | none => none

/-- `:?(\d{2})?\s*(am|pm)`: greedy optional colon, with backtracking. -/
def tmAfterHour (s : List Char) : Option (ℕ × Bool) :=
  match litC ':' s with
  | some r =>
    match tmOptMin r with
    | some v => some v
    | none => tmOptMin s
  | none => tmOptMin s

/-- The time regex of patterns 2 and 3, `(\d{1,2}):?(\d{2})?\s*(am|pm)`,
at the current position: `(hour, minute, pm)` with the regex's greedy
backtracking (`"130 pm"` parses as hour 1, minute 30). -/
def matchTime (s : List Char) : Option (ℕ × ℕ × Bool) :=
  match s with
  | [] => none
  | c :: cs =>
    if isDigitC c then
      match cs with
      | d :: ds =>
        if isDigitC d then
          match tmAfterHour ds with
          | some (mi, pm) => some (digitsVal [c, d], mi, pm)
          | none =>
            match tmAfterHour cs with
            | some (mi, pm) => some (digitsVal [c], mi, pm)
            | none => none
        else
          match tmAfterHour cs with
          | some (mi, pm) => some (digitsVal [c], mi, pm)
          | none => none
      | [] => none
    else none

/-- Patterns 4/5, `in\s+(\d+)\s*minutes?` (resp. `hours?`), at the current
position; `stem` is `minute` or `hour` (the optional plural `s` never
affects success). -/
def matchRel (stem : List Char) (s : List Char) : Option ℕ :=
  match s with
  | 'i' :: 'n' :: r =>
    (ws1Plus r).bind fun r2 =>
    let d := r2.takeWhile isDigitC
    if d = [] then none
    else
      let r3 := r2.drop d.length
      if stem.isPrefixOf (r3.drop (r3.takeWhile isWsC).length) then some (digitsVal d)
      else none
  | _ => none

/-- Pattern 6, anchored `^(\d{1,2}):(\d{2})\s*(am|pm)$`. -/
def matchBare (s : List Char) : Option (ℕ × ℕ × Bool) :=
  (digits12 s).bind fun (h, r1) =>
  (litC ':' r1).bind fun r2 =>
  (digitsN 2 r2).bind fun (mi, r3) =>
  (ampmTok (r3.drop (r3.takeWhile isWsC).length)).bind fun (pm, rest) =>
  if rest = [] then some (digitsVal h, digitsVal mi, pm) else none

/-- Result of `parse_voice_time`: `notParsed` is Python `None`,
`errored` models a `ValueError` escaping from `datetime.replace`. -/
inductive ParseResult where
  | notParsed
  | parsed (t : DT)
  | errored
deriving DecidableEq, Repr

/-- Pattern 6 branch (bare `HH:MM am/pm`), with the past-time day rollover. -/
def parseP6 (s : List Char) (now : DT) : ParseResult :=
  match matchBare s with
  | some (h, mi, pm) =>
    let h24 := conv12 h pm
    if h24 ≤ 23 ∧ mi ≤ 59 then
      let t0 : DT := { now with hour := h24, minute := mi }
      .parsed (if dtKey t0 ≤ dtKey now then addOneDayD t0 else t0)
    else .errored
  | none => .notParsed

/-- Pattern 4/5 branch (`in N minutes` / `in N hours`). -/
def parseP45 (s : List Char) (now : DT) : ParseResult :=
  match searchPos (matchRel "minute".data) s with
  | some n => .parsed (addMinutesD now n)
  | none =>
    match searchPos (matchRel "hour".data) s with
    | some n => .parsed (addMinutesD now (n * 60))
    | none => parseP6 s now

/-- Pattern 3 branch (`today`/`at` + time), with the past-time rollover. -/
def parseP3 (s : List Char) (now : DT) : ParseResult :=
  if isSubL "today".data s ∨ isSubL "at".data s then
    match searchPos matchTime s with
    | some (h, mi, pm) =>
      let h24 := conv12 h pm
      if h24 ≤ 23 ∧ mi ≤ 59 then
        let t0 : DT := { now with hour := h24, minute := mi }
        .parsed (if dtKey t0 ≤ dtKey now then addOneDayD t0 else t0)
      else .errored
    | none => parseP45 s now
  else parseP45 s now

/-- Pattern 2 branch (`tomorrow` + time). -/
def parseP2 (s : List Char) (now : DT) : ParseResult :=
  if isSubL "tomorrow".data s then
    match searchPos matchTime s with
    | some (h, mi, pm) =>
      let h24 := conv12 h pm
      if h24 ≤ 23 ∧ mi ≤ 59 then
        .parsed { addOneDayD now with hour := h24, minute := mi }
      else .errored
    | none => parseP3 s now
  else parseP3 s now

/-- `alarm.parse_voice_time`.  The input is stripped and lower-cased first;
pattern 1 validates its literal date via `strptime` (an invalid date or
field raises `ValueError`, caught as `None`), including `datetime`'s year
range `MINYEAR = 1` (the four-digit year group already caps it at 9999),
and performs no rollover. -/
def parse_voice_time (input : String) (now : DT) : ParseResult :=
  let s := lowerL (stripL input.data)
  match searchPos matchP1 s with
  | some (y, mo, d, h, mi, pm) =>
    let h24 := conv12 h pm
    if 1 ≤ y ∧ 1 ≤ mo ∧ mo ≤ 12 ∧ 1 ≤ d ∧ d ≤ daysInMonth y mo ∧
        h24 ≤ 23 ∧ mi ≤ 59 then
      .parsed ⟨y, mo, d, h24, mi⟩
    else .notParsed
  | none => parseP2 s now

/-- Outcome of `alarm.set_alarm_voice`; `createOk` abstracts the calendar
collaborator's success. -/
inductive AlarmOutcome where
  | parseFailed
  | pastRejected
  | created (t : DT)
  | createFailed
  | errored
deriving DecidableEq, Repr

/-- The user-facing rejection message of `set_alarm_voice`. -/
def pastMessage : String := "That time is in the past. Please specify a future time."

/-- `alarm.set_alarm_voice`: parse, reject non-future times with
`pastMessage`, otherwise create the calendar event. -/
def set_alarm_voice (input : String) (now : DT) (createOk : Bool) : AlarmOutcome :=
  match parse_voice_time input now with
  | .notParsed => .parseFailed
  | .errored => .errored
  | .parsed t =>
    if dtKey t ≤ dtKey now then .pastRejected
    else if createOk then .created t else .createFailed

example :
    set_alarm_voice "3:00 pm" ⟨2026, 10, 12, 17, 0⟩ true =
      .created ⟨2026, 10, 13, 15, 0⟩ := by decide
example :
    set_alarm_voice "2020-01-15 3:00 pm" ⟨2026, 10, 12, 17, 0⟩ true =
      .pastRejected := by decide
example :
    set_alarm_voice "0000-01-15 3:00 pm" ⟨2026, 10, 12, 17, 0⟩ true =
      .parseFailed := by decide
example :
    set_alarm_voice "tomorrow at 10 am" ⟨2026, 12, 31, 17, 0⟩ true =
      .created ⟨2027, 1, 1, 10, 0⟩ := by decide

/-! ### Auxiliary predicates and checkers for the normalizer proofs -/

/-- Every character is fixed by lower-casing. -/
def AllLower (s : List Char) : Prop := ∀ c ∈ s, lowerC c = c

/-- Whitespace-canonical: every whitespace character is a plain space and
no two whitespace characters are adjacent. -/
def WsCanon (s : List Char) : Prop :=
  (∀ c ∈ s, isWsC c = true → c = ' ') ∧
    List.Chain' (fun a b => ¬(isWsC a = true ∧ isWsC b = true)) s

/-- The last character (if any) is not terminal punctuation. -/
def LastNotPunct (s : List Char) : Prop :=
  ∀ c, s.getLast? = some c → isPunctC c = false

/-- The first character (if any) is not whitespace. -/
def HeadNotWs (s : List Char) : Prop :=
  ∀ c, s.head? = some c → isWsC c = false

/-- No contraction key occurs in the string. -/
def KeyFree (s : List Char) : Prop :=
  ∀ p ∈ CONTRACTIONS, ¬ p.1.data <:+: s

/-- Decidable overlap conditions under which replacing `k` by `e` cannot
create a new occurrence of an absent word `a` (checked for every pair of
table entries by `tableOK`). -/
def crossOK (a k e : List Char) : Bool :=
  !(isSubL a e) && !(isSubL e a) &&
  ((List.range (a.length + 1)).all fun i =>
    let v := a.drop i
    !(v ≠ [] && v.isPrefixOf e) || v.isPrefixOf k) &&
  ((List.range (a.length + 1)).all fun i =>
    let u := a.take i
    !(u ≠ [] && u.isSuffixOf e) || u.isSuffixOf k)

/-- Decidable overlap conditions under which replacing `k` by `e` leaves no
occurrence of `k` itself in the output. -/
def selfOK (k e : List Char) : Bool :=
  !(isSubL k e) && !(isSubL e k) &&
  ((List.range (k.length + 1)).all fun i =>
    let v := k.drop i
    !(v ≠ [] && v.isPrefixOf e) || v.isPrefixOf k) &&
  ((List.range' 1 (k.length - 1)).all fun i => !((k.take i).isSuffixOf e))

/-- One fold step of the contraction pass is safe: either the new key
satisfies `selfOK` and every already-processed key passes `crossOK`, or the
new key contains an already-absent earlier key (so the replace is the
identity). -/
def stepOK (p : String × String) (done : List String) : Bool :=
  p.1.data ≠ [] &&
  ((selfOK p.1.data p.2.data && done.all fun a => crossOK a.data p.1.data p.2.data) ||
    done.any fun a => isSubL a.data p.1.data)

/-- The whole contraction table is safe in processing order. -/
def tableOK : List (String × String) → List String → Bool
  | [], _ => true
  | p :: rest, done => stepOK p done && tableOK rest (done ++ [p.1])

/-- The original-text continuation that follows a segment in the
intercalate decomposition of a replace pass. -/
def segCont (k : List Char) (rest : List (List Char)) : List Char :=
  if rest = [] then [] else k ++ List.intercalate k rest

/-- The leftmost-scan invariant of the segments produced by one replace
pass: inside a segment (at any non-final position) the key is not a prefix
of the remaining original text. -/
def SegsOK (k : List Char) : List (List Char) → Prop
  | [] => True
  | seg :: rest =>
    (∀ s₂, s₂ <:+ seg → s₂ ≠ [] → ¬ k <+: (s₂ ++ segCont k rest)) ∧
      SegsOK k rest

/-- Adjacent-whitespace freedom as a Boolean checker. -/
def chainWsB : List Char → Bool
  | [] => true
  | [_] => true
  | a :: b :: t => !(isWsC a && isWsC b) && chainWsB (b :: t)

/-- Per-entry checks used by the invariant-preservation lemmas: non-empty
key, and a replacement value that is whitespace-canonical, fully
lower-case, starts and ends with a non-whitespace character and does not
end in terminal punctuation. -/
def entryOK (p : String × String) : Bool :=
  !(p.1.data.isEmpty) && !(p.2.data.isEmpty) &&
  (p.2.data.all fun c => !(isWsC c) || c == ' ') &&
  chainWsB p.2.data &&
  p.2.data.head?.all (fun c => !(isWsC c)) &&
  p.2.data.getLast?.all (fun c => !(isWsC c)) &&
  (p.2.data.all fun c => lowerC c == c) &&
  p.2.data.getLast?.all (fun c => !(isPunctC c))

/-- The invariants of a normalized string that make each normalizer stage
the identity: whitespace is canonical single spaces, everything is
lower-case, and the last character is not terminal punctuation. -/
def NormInv (s : List Char) : Prop :=
  (∀ c ∈ s, isWsC c = true → c = ' ') ∧
  List.Chain' (fun a b => ¬(isWsC a = true ∧ isWsC b = true)) s ∧
  (∀ c ∈ s, lowerC c = c) ∧
  (∀ c, s.getLast? = some c → isPunctC c = false)

/-! ### Claim-side formula for the pattern scorer (amended C2 wording) -/

/-- The per-pattern contribution described by the (amended) specification:
`0` when the union of the two word sets is empty — bonuses included —
otherwise Jaccard similarity plus the substring and fuzzy bonuses. -/
def claimContribution (t p : String) : ℚ :=
  let tl := lowerL t.data
  let pl := lowerL p.data
  let tw := wordFinset tl
  let pw := wordFinset pl
  if tw ∪ pw = ∅ then 0
  else
    let j1 : ℚ := mkRat ((tw ∩ pw).card : ℤ) (tw ∪ pw).card
    let j2 := if isSubL pl tl then qadd j1 (mkRat 3 10) else j1
    let f := seqRatio tl pl
    if mkRat 7 10 < f then qadd j2 (qmul f (mkRat 2 10)) else j2

/-! ### Concrete fixtures used by counterexamples and witnesses -/

/-- A lexical-strategy oracle that never recognises an intent. -/
def cexSpacy : String → String := fun _ => "unknown"

/-- A secondary-strategy oracle that is confident the prior utterance
`"search for python tutorials"` is about the weather and knows nothing
else; admissible behaviour for the zero-shot collaborator. -/
def cexTransformer : String → String × ℚ := fun t =>
  if t = "search for python tutorials" then ("weather", mkRat 9 10) else ("unknown", 0)

/-- A 600-character knowledge-base section content. -/
def longContent : String := String.join (List.replicate 100 "hello ")

example :
    get_intent_with_context cexSpacy cexTransformer (some noNer)
      "tell me more about that" ["search for python tutorials"] =
      ("unknown", 0, extract_entities (some noNer) "tell me more about that") := by
  decide
example : (retrieve_context [("S", [longContent])] "hello").length = 503 := by decide

/-! ## Theorems -/

theorem qadd_eq (a b : ℚ) : qadd a b = a + b := by
  unfold qadd
  rw [Rat.mkRat_eq_div]
  have ha : (a.den : ℚ) ≠ 0 := Nat.cast_ne_zero.mpr a.den_nz
  have hb : (b.den : ℚ) ≠ 0 := Nat.cast_ne_zero.mpr b.den_nz
  conv_rhs => rw [← Rat.num_div_den a, ← Rat.num_div_den b]
  push_cast
  field_simp

theorem qmul_eq (a b : ℚ) : qmul a b = a * b := by
  unfold qmul
  rw [Rat.mkRat_eq_div]
  conv_rhs => rw [← Rat.num_div_den a, ← Rat.num_div_den b]
  push_cast
  rw [div_mul_div_comm]

/-- C1.  For every input whose normalized text is non-empty, the hybrid
classifier follows the four-case combination rule of `get_intent_hybrid`:
agreement on a non-unknown intent yields that intent with confidence
`max(0.8, secondary confidence)`; otherwise a secondary confidence above
`0.7` wins; otherwise a non-unknown lexical intent is returned with
confidence `0.6`; otherwise the result is `("unknown", 0.0)`.  In
particular an agreed non-unknown intent always carries confidence `≥ 0.8`. -/
theorem c1_hybrid_combination (sp : String → String) (tr : String → String × ℚ)
    (nlpO : Option (String → List (String × String))) (text : String)
    (h : preprocess_text text ≠ "") :
    (sp (preprocess_text text) = (tr (preprocess_text text)).1 ∧
        sp (preprocess_text text) ≠ "unknown" →
      get_intent_hybrid sp tr nlpO text =
        (sp (preprocess_text text), max (mkRat 8 10) (tr (preprocess_text text)).2,
          extract_entities nlpO (preprocess_text text))) ∧
    (¬(sp (preprocess_text text) = (tr (preprocess_text text)).1 ∧
        sp (preprocess_text text) ≠ "unknown") →
      mkRat 7 10 < (tr (preprocess_text text)).2 →
      get_intent_hybrid sp tr nlpO text =
        ((tr (preprocess_text text)).1, (tr (preprocess_text text)).2,
          extract_entities nlpO (preprocess_text text))) ∧
    (¬(sp (preprocess_text text) = (tr (preprocess_text text)).1 ∧
        sp (preprocess_text text) ≠ "unknown") →
      ¬(mkRat 7 10 < (tr (preprocess_text text)).2) →
      sp (preprocess_text text) ≠ "unknown" →
      get_intent_hybrid sp tr nlpO text =
        (sp (preprocess_text text), mkRat 6 10,
          extract_entities nlpO (preprocess_text text))) ∧
    (¬(sp (preprocess_text text) = (tr (preprocess_text text)).1 ∧
        sp (preprocess_text text) ≠ "unknown") →
      ¬(mkRat 7 10 < (tr (preprocess_text text)).2) →
      sp (preprocess_text text) = "unknown" →
      get_intent_hybrid sp tr nlpO text =
        ("unknown", 0, extract_entities nlpO (preprocess_text text))) ∧
    (sp (preprocess_text text) = (tr (preprocess_text text)).1 →
      sp (preprocess_text text) ≠ "unknown" →
      mkRat 8 10 ≤ (get_intent_hybrid sp tr nlpO text).2.1) := by
  have e :
      get_intent_hybrid sp tr nlpO text =
        (if sp (preprocess_text text) = (tr (preprocess_text text)).1 ∧
            sp (preprocess_text text) ≠ "unknown" then
          (sp (preprocess_text text), max (mkRat 8 10) (tr (preprocess_text text)).2,
            extract_entities nlpO (preprocess_text text))
        else if mkRat 7 10 < (tr (preprocess_text text)).2 then
          ((tr (preprocess_text text)).1, (tr (preprocess_text text)).2,
            extract_entities nlpO (preprocess_text text))
        else if sp (preprocess_text text) ≠ "unknown" then
          (sp (preprocess_text text), mkRat 6 10,
            extract_entities nlpO (preprocess_text text))
        else ("unknown", 0, extract_entities nlpO (preprocess_text text))) := by
    simp only [get_intent_hybrid]
    rw [if_neg h]
  refine ⟨?_, ?_, ?_, ?_, ?_⟩
  · intro hA
    rw [e, if_pos hA]
  · intro hA hB
    rw [e, if_neg hA, if_pos hB]
  · intro hA hB hC
    rw [e, if_neg hA, if_neg hB, if_pos hC]
  · intro hA hB hC
    rw [e, if_neg hA, if_neg hB, if_neg (by simp [hC])]
  · intro h1 h2
    rw [e, if_pos ⟨h1, h2⟩]
    exact le_max_left _ _

/-- Witness for C1 at a concrete input and concrete agreeing oracles. -/
theorem c1_witness :
    get_intent_hybrid (fun _ => "greet") (fun _ => ("greet", mkRat 1 2))
        (some noNer) "hello" =
      ("greet", max (mkRat 8 10) (mkRat 1 2),
        extract_entities (some noNer) (preprocess_text "hello")) ∧
    mkRat 8 10 ≤
      (get_intent_hybrid (fun _ => "greet") (fun _ => ("greet", mkRat 1 2))
          (some noNer) "hello").2.1 :=
  ⟨(c1_hybrid_combination (fun _ => "greet") (fun _ => ("greet", mkRat 1 2))
      (some noNer) "hello" (by decide)).1 (by decide),
   (c1_hybrid_combination (fun _ => "greet") (fun _ => ("greet", mkRat 1 2))
      (some noNer) "hello" (by decide)).2.2.2.2 (by decide) (by decide)⟩

/-- C6.  Any intent outside the dispatcher's handled vocabulary (in
particular `"unknown"`) reaches the generative-fallback branch, and when
the fallback collaborator returns `None` the user-facing response is the
literal apology string. -/
theorem c6_unhandled_fallback (intent : String) (h : intent ∉ handledIntents) :
    dispatchAction intent = DispatchAction.fallbackAction ∧
      fallbackResponse none = "I couldn't find an answer to that." := by
  refine ⟨?_, rfl⟩
  have mem : ∀ (l : List String), (∀ x ∈ l, x ∈ handledIntents) →
      ¬ intent ∈ l := fun l hl hc => h (hl _ hc)
  have n1 : ¬ intent = "exit" := fun hc => h (by rw [hc]; decide)
  have n2 := mem ["greet", "smalltalk_hello"] (by decide)
  have n3 := mem ["get_name", "get_capabilities"] (by decide)
  have n4 := mem ["smalltalk_howareyou", "smalltalk_ok", "thanks", "compliment"]
    (by decide)
  have n5 := mem ["search_google", "general_search"] (by decide)
  have n6 : ¬ intent = "search_youtube" := fun hc => h (by rw [hc]; decide)
  have n7 : ¬ intent = "search_wikipedia" := fun hc => h (by rw [hc]; decide)
  have n8 := mem ["temperature", "weather", "weather_extended"] (by decide)
  have n9 := mem ["get_time", "get_date", "get_datetime"] (by decide)
  have n10 := mem ["open_app", "app_control"] (by decide)
  have n11 : ¬ intent = "close_app" := fun hc => h (by rw [hc]; decide)
  have n12 := mem ["set_alarm", "list_alarms", "cancel_alarm"] (by decide)
  have n13 : ¬ intent = "help" := fun hc => h (by rw [hc]; decide)
  have n14 : ¬ intent = "repeat" := fun hc => h (by rw [hc]; decide)
  unfold dispatchAction
  rw [if_neg n1, if_neg n2, if_neg n3, if_neg n4, if_neg n5, if_neg n6,
    if_neg n7, if_neg n8, if_neg n9, if_neg n10, if_neg n11, if_neg n12,
    if_neg n13, if_neg n14]

/-- Witness for C6 at the `"unknown"` intent. -/
theorem c6_witness :
    dispatchAction "unknown" = DispatchAction.fallbackAction ∧
      fallbackResponse none = "I couldn't find an answer to that." :=
  c6_unhandled_fallback "unknown" (by decide)

theorem relevance_zero_of_disjoint (q c : String)
    (h : ragWords q ∩ ragWords c = ∅) : relevance_score q c = 0 := by
  unfold relevance_score
  simp only []
  split_ifs with h1 h2
  · rfl
  · rw [h]
    simp [Rat.mkRat_eq_div]
  · rfl

theorem relevance_zero_of_no_words (q : String) (h : ragWords q = ∅) (c : String) :
    relevance_score q c = 0 := by
  unfold relevance_score
  rw [if_pos h]

theorem scoredSections_nil (kb : List (String × List String)) (q : String)
    (h : ∀ sec ∈ kb, relevance_score q (sjoin " " sec.2) = 0) :
    scoredSections kb q = [] := by
  unfold scoredSections
  rw [List.filterMap_eq_nil_iff]
  intro sec hsec
  rw [if_neg]
  rw [h sec hsec]
  exact lt_irrefl 0

theorem retrieve_context_of_scored_nil (kb : List (String × List String))
    (q : String) (maxLen : ℕ) (h : scoredSections kb q = []) :
    retrieve_context kb q maxLen = "" := by
  unfold retrieve_context
  split_ifs with h1
  · rfl
  · rw [h]
    rfl

/-- C10.  Only strictly-positively scored sections are retrieved: an empty
knowledge base, a query sharing no word with any section, or a query that
normalizes to zero words each produce the empty context string (and a
word-free query scores `0.0` against every section). -/
theorem c10_empty_retrieval :
    (∀ q maxLen, retrieve_context [] q maxLen = "") ∧
    (∀ kb q maxLen, (∀ sec ∈ kb, ragWords q ∩ ragWords (sjoin " " sec.2) = ∅) →
      retrieve_context kb q maxLen = "") ∧
    (∀ q, ragWords q = ∅ →
      (∀ c, relevance_score q c = 0) ∧
        ∀ kb maxLen, retrieve_context kb q maxLen = "") := by
  refine ⟨fun q maxLen => rfl, fun kb q maxLen h => ?_, fun q h => ?_⟩
  · exact retrieve_context_of_scored_nil kb q maxLen
      (scoredSections_nil kb q fun sec hs =>
        relevance_zero_of_disjoint q _ (h sec hs))
  · refine ⟨relevance_zero_of_no_words q h, fun kb maxLen => ?_⟩
    exact retrieve_context_of_scored_nil kb q maxLen
      (scoredSections_nil kb q fun sec _ => relevance_zero_of_no_words q h _)

/-- Witness for C10 at a concrete knowledge base, a disjoint query and a
word-free query. -/
theorem c10_witness :
    retrieve_context [("Identity", ["I am Ashley"])] "quantum turnips" 500 = "" ∧
    relevance_score "!!!" "I am Ashley" = 0 :=
  ⟨c10_empty_retrieval.2.1 [("Identity", ["I am Ashley"])] "quantum turnips" 500
      (by decide),
    (c10_empty_retrieval.2.2 "!!!" (by decide)).1 "I am Ashley"⟩

/-- C5, counterexample.  A single relevant 600-character section is
truncated to 500 characters plus the 3-character ellipsis, so the
returned context string has 503 > 500 characters: the result can exceed
the character budget (and the cut is a raw character slice). -/
theorem c5_counterexample :
    ¬ ((retrieve_context [("S", [longContent])] "hello").length ≤ 500) := by decide

theorem buildParts_sum_le (maxLen : ℕ) :
    ∀ (l : List ScoredSection) (cur : ℕ),
      ((buildParts maxLen l cur).map String.length).sum ≤ (maxLen - cur) + 3 := by
  intro l
  induction l with
  | nil => intro cur; simp [buildParts]
  | cons item rest ih =>
    intro cur
    simp only [buildParts]
    split_ifs with h1 h2
    · simp only [List.map_cons, List.sum_cons]
      have := ih (cur + (sectionText item).length)
      omega
    · simp only [List.map_cons, List.map_nil, List.sum_cons, List.sum_nil]
      have ht : ((⟨(sectionText item).data.take (maxLen - cur)⟩ : String)).length
          ≤ maxLen - cur := by
        show ((sectionText item).data.take (maxLen - cur)).length ≤ maxLen - cur
        simp [List.length_take]
      have ha : ∀ a b : String, (a ++ b).length = a.length + b.length := by
        intro a b
        show (a.data ++ b.data).length = a.data.length + b.data.length
        exact List.length_append _ _
      rw [ha]
      have : ("..." : String).length = 3 := rfl
      omega
    · simp

theorem sjoin_length_le (sep : String) :
    ∀ parts : List String,
      (sjoin sep parts).length ≤
        (parts.map String.length).sum + sep.length * (parts.length - 1) := by
  have ha : ∀ a b : String, (a ++ b).length = a.length + b.length := by
    intro a b
    show (a.data ++ b.data).length = a.data.length + b.data.length
    exact List.length_append _ _
  intro parts
  induction parts with
  | nil => simp [sjoin]
  | cons x ys ih =>
    cases ys with
    | nil => simp [sjoin]
    | cons y rest =>
      have hr := ih
      simp only [sjoin, List.map_cons, List.sum_cons, List.length_cons] at *
      rw [ha, ha]
      have hm : sep.length * (rest.length + 1 - 1) = sep.length * rest.length := by
        simp
      have hm2 : sep.length * (rest.length + 1 + 1 - 1) =
          sep.length * rest.length + sep.length := by
        rw [Nat.add_sub_cancel, Nat.mul_add, Nat.mul_one]
      omega

theorem buildParts_length_le (maxLen : ℕ) :
    ∀ (l : List ScoredSection) (cur : ℕ),
      (buildParts maxLen l cur).length ≤ l.length := by
  intro l
  induction l with
  | nil => intro cur; simp [buildParts]
  | cons item rest ih =>
    intro cur
    simp only [buildParts]
    split_ifs with h1 h2
    · have := ih (cur + (sectionText item).length)
      simp only [List.length_cons]
      omega
    · simp
    · simp

theorem length_sortDesc : ∀ l : List ScoredSection, (sortDesc l).length = l.length := by
  have hi : ∀ (x : ScoredSection) (l : List ScoredSection),
      (insertDesc x l).length = l.length + 1 := by
    intro x l
    induction l with
    | nil => rfl
    | cons y ys ih =>
      simp only [insertDesc]
      split_ifs
      · rfl
      · simp only [List.length_cons, ih]
  intro l
  induction l with
  | nil => rfl
  | cons x xs ih => simp only [sortDesc, hi, List.length_cons, ih]

theorem mem_insertDesc {b x : ScoredSection} :
    ∀ {l : List ScoredSection}, b ∈ insertDesc x l → b = x ∨ b ∈ l := by
  intro l
  induction l with
  | nil => intro h; simpa [insertDesc] using h
  | cons y ys ih =>
    intro h
    by_cases hc : y.score < x.score
    · simp only [insertDesc, if_pos hc] at h
      rcases List.mem_cons.mp h with h1 | h1
      · exact Or.inl h1
      · exact Or.inr h1
    · simp only [insertDesc, if_neg hc] at h
      rcases List.mem_cons.mp h with h1 | h1
      · exact Or.inr (by simp [h1])
      · rcases ih h1 with h2 | h2
        · exact Or.inl h2
        · exact Or.inr (List.mem_cons_of_mem _ h2)

theorem sorted_insertDesc (x : ScoredSection) :
    ∀ l : List ScoredSection,
      List.Sorted (fun a b => b.score ≤ a.score) l →
      List.Sorted (fun a b => b.score ≤ a.score) (insertDesc x l) := by
  intro l
  induction l with
  | nil => intro _; simp [insertDesc]
  | cons y ys ih =>
    intro h
    rw [List.sorted_cons] at h
    obtain ⟨hy, hys⟩ := h
    simp only [insertDesc]
    split_ifs with hlt
    · rw [List.sorted_cons]
      refine ⟨?_, List.sorted_cons.mpr ⟨hy, hys⟩⟩
      intro b hb
      rcases List.mem_cons.mp hb with rfl | hb
      · exact le_of_lt hlt
      · exact le_trans (hy b hb) (le_of_lt hlt)
    · rw [List.sorted_cons]
      refine ⟨?_, ih hys⟩
      intro b hb
      rcases mem_insertDesc hb with rfl | hb
      · exact not_lt.mp hlt
      · exact hy b hb

theorem sorted_sortDesc :
    ∀ l : List ScoredSection,
      List.Sorted (fun a b => b.score ≤ a.score) (sortDesc l) := by
  intro l
  induction l with
  | nil => simp [sortDesc]
  | cons x xs ih => exact sorted_insertDesc x _ ih

theorem buildParts_struct (maxLen : ℕ) :
    ∀ (l : List ScoredSection) (cur : ℕ),
      ∃ (k : ℕ) (t : Option String),
        buildParts maxLen l cur = (l.take k).map sectionText ++ t.toList := by
  intro l
  induction l with
  | nil => intro cur; exact ⟨0, none, rfl⟩
  | cons item rest ih =>
    intro cur
    simp only [buildParts]
    split_ifs with h1 h2
    · obtain ⟨k, t, ht⟩ := ih (cur + (sectionText item).length)
      exact ⟨k + 1, t, by simp [List.take_succ_cons, ht]⟩
    · exact ⟨0, some _, rfl⟩
    · exact ⟨0, none, rfl⟩

/-- C5, amended.  Retrieval scores sections by Jaccard word overlap, keeps
only positive scores, orders them weakly descending, and builds the context
from a prefix of that order with at most one truncated final part; the
result length is bounded by the budget plus 3 characters per section (the
ellipsis, and the `" | "` separators, are not charged to the budget), not
by the budget itself. -/
theorem c5_amended (kb : List (String × List String)) (q : String) (maxLen : ℕ) :
    (retrieve_context kb q maxLen).length ≤ maxLen + 3 * kb.length ∧
    List.Sorted (fun a b => b.score ≤ a.score) (sortDesc (scoredSections kb q)) ∧
    (∃ (k : ℕ) (t : Option String),
      buildParts maxLen (sortDesc (scoredSections kb q)) 0 =
        ((sortDesc (scoredSections kb q)).take k).map sectionText ++ t.toList) ∧
    (kb ≠ [] →
      retrieve_context kb q maxLen =
        sjoin " | " (buildParts maxLen (sortDesc (scoredSections kb q)) 0)) := by
  refine ⟨?_, sorted_sortDesc _, buildParts_struct maxLen _ 0, fun hkb => ?_⟩
  · unfold retrieve_context
    split_ifs with h1
    · simp [String.length]
    · set l := sortDesc (scoredSections kb q) with hl
      set parts := buildParts maxLen l 0 with hp
      have hsum := buildParts_sum_le maxLen l 0
      rw [← hp] at hsum
      have hjoin := sjoin_length_le " | " parts
      have hk : parts.length ≤ l.length := buildParts_length_le maxLen l 0
      have hlk : l.length ≤ kb.length := by
        rw [hl, length_sortDesc]
        exact List.length_filterMap_le _ _
      have hsep : (" | " : String).length = 3 := rfl
      rcases Nat.eq_zero_or_pos parts.length with hz | hpos
      · have hnil : parts = [] := List.length_eq_zero.mp hz
        rw [hnil]
        have : (sjoin " | " []).length = 0 := rfl
        omega
      · have : (sjoin " | " parts).length ≤
            (maxLen - 0 + 3) + 3 * (parts.length - 1) := by
          rw [hsep] at hjoin
          omega
        have h3 : 3 * (parts.length - 1) + 3 = 3 * parts.length := by
          omega
        have h4 : 3 * parts.length ≤ 3 * kb.length := by
          have := le_trans hk hlk
          omega
        omega
  · unfold retrieve_context
    rw [if_neg hkb]

/-- Witness for C5 at a concrete knowledge base. -/
theorem c5_witness :
    (retrieve_context [("S", [longContent])] "hello" 500).length ≤
        500 + 3 * ([("S", [longContent])] : List (String × List String)).length ∧
    retrieve_context [("S", [longContent])] "hello" 500 =
      sjoin " | "
        (buildParts 500 (sortDesc (scoredSections [("S", [longContent])] "hello")) 0) :=
  ⟨(c5_amended [("S", [longContent])] "hello" 500).1,
   (c5_amended [("S", [longContent])] "hello" 500).2.2.2 (by decide)⟩

/-- C2, counterexample.  The whitespace-only text `" "` is a non-empty
string, yet against itself as sole pattern the scorer returns `0.0`, not a
value `≥ 1.0`: when the two word sets are both empty the whole pattern is
skipped, substring and fuzzy bonuses included. -/
theorem c2_counterexample :
    calculate_similarity_score " " [" "] = 0 ∧
      ¬ (1 ≤ calculate_similarity_score " " [" "]) := by decide

theorem mkRat_nat_nonneg (m n : ℕ) : 0 ≤ mkRat (m : ℤ) n := by
  rw [Rat.mkRat_eq_div]
  positivity

theorem patternScore_nonneg (tl : List Char) (tw : Finset (List Char))
    (p : String) (sc : ℚ) (h : patternScore tl tw p = some sc) : 0 ≤ sc := by
  unfold patternScore at h
  simp only [] at h
  by_cases hu : tw ∪ wordFinset (lowerL p.data) = ∅
  · rw [if_pos hu] at h
    exact absurd h (by simp)
  · rw [if_neg hu, Option.some.injEq] at h
    subst h
    have hj1 : (0 : ℚ) ≤ mkRat ((tw ∩ wordFinset (lowerL p.data)).card : ℤ)
        (tw ∪ wordFinset (lowerL p.data)).card := mkRat_nat_nonneg _ _
    have h3 : (0 : ℚ) ≤ mkRat 3 10 := by decide
    have h2 : (0 : ℚ) ≤ mkRat 2 10 := by decide
    have h7 : (0 : ℚ) ≤ mkRat 7 10 := by decide
    split_ifs with hlt hsub hsub
    · rw [qadd_eq, qadd_eq, qmul_eq]
      have hf0 : (0 : ℚ) ≤ seqRatio tl (lowerL p.data) := le_trans h7 (le_of_lt hlt)
      have := mul_nonneg hf0 h2
      linarith
    · rw [qadd_eq, qmul_eq]
      have hf0 : (0 : ℚ) ≤ seqRatio tl (lowerL p.data) := le_trans h7 (le_of_lt hlt)
      have := mul_nonneg hf0 h2
      linarith
    · rw [qadd_eq]
      linarith
    · exact hj1

theorem claimContribution_eq (t p : String) :
    claimContribution t p =
      match patternScore (lowerL t.data) (wordFinset (lowerL t.data)) p with
      | some v => v
      | none => 0 := by
  unfold claimContribution patternScore
  simp only []
  split_ifs <;> rfl

theorem foldr_max_nonneg : ∀ l : List ℚ, 0 ≤ l.foldr max 0 := by
  intro l
  induction l with
  | nil => simp
  | cons x xs ih => exact le_trans ih (le_max_right x _)

theorem score_foldl_eq_max (tl : List Char) (tw : Finset (List Char)) :
    ∀ (ps : List String) (acc : ℚ), 0 ≤ acc →
      ps.foldl
        (fun maxScore p =>
          match patternScore tl tw p with
          | some sc => max maxScore sc
          | none => maxScore) acc =
      max acc
        ((ps.map fun p =>
          match patternScore tl tw p with
          | some v => v
          | none => 0).foldr max 0) := by
  intro ps
  induction ps with
  | nil =>
    intro acc hacc
    simp [max_eq_left hacc]
  | cons p rest ih =>
    intro acc hacc
    simp only [List.foldl_cons, List.map_cons, List.foldr_cons]
    cases hps : patternScore tl tw p with
    | none =>
      rw [ih acc hacc]
      have h0 : (0 : ℚ) ≤ (rest.map fun p =>
          match patternScore tl tw p with
          | some v => v
          | none => 0).foldr max 0 := foldr_max_nonneg _
      rw [max_eq_right h0]
    | some sc =>
      have hsc : 0 ≤ sc := patternScore_nonneg tl tw p sc hps
      rw [ih (max acc sc) (le_trans hsc (le_max_right _ _))]
      rw [max_assoc]

theorem isSubL_self : ∀ l : List Char, isSubL l l = true := by
  intro l
  cases l with
  | nil => rfl
  | cons c t =>
    unfold isSubL
    rw [Bool.or_eq_true]
    exact Or.inl (List.isPrefixOf_iff_prefix.mpr (List.prefix_refl _))

theorem mkRat_self (n : ℕ) (h : n ≠ 0) : mkRat (n : ℤ) n = 1 := by
  rw [Rat.mkRat_eq_div]
  push_cast
  exact div_self (Nat.cast_ne_zero.mpr h)

/-- C2, amended.  The scorer's edge cases hold (`score(t, []) = 0`,
`score("", ps) = 0`); on non-degenerate input it returns the maximum over
the patterns of the per-pattern contribution — never a sum across patterns
— where a pattern whose word-set union with the text is empty contributes
nothing at all (bonuses included); and `score(t, [t]) ≥ 1` holds for every
text containing at least one word (rather than for every non-empty
string).  The function is a pure Lean function by construction. -/
theorem c2_amended (t : String) (ps : List String) :
    calculate_similarity_score t [] = 0 ∧
    calculate_similarity_score "" ps = 0 ∧
    (t ≠ "" → ps ≠ [] →
      calculate_similarity_score t ps = (ps.map (claimContribution t)).foldr max 0) ∧
    (wordsSplit (lowerL t.data) ≠ [] → 1 ≤ calculate_similarity_score t [t]) := by
  refine ⟨by simp [calculate_similarity_score], by simp [calculate_similarity_score],
    fun ht hps => ?_, fun hw => ?_⟩
  · unfold calculate_similarity_score
    rw [if_neg (by simp [ht, hps])]
    rw [score_foldl_eq_max _ _ ps 0 le_rfl]
    rw [max_eq_right (foldr_max_nonneg _)]
    congr 1
    apply List.map_congr_left
    intro p _
    rw [claimContribution_eq]
  · have ht : t ≠ "" := by
      intro he
      apply hw
      rw [he]
      rfl
    have htw : ¬ wordFinset (lowerL t.data) = ∅ := by
      unfold wordFinset
      intro hc
      exact hw (List.toFinset_eq_empty_iff _ |>.mp hc)
    have hcard : (wordFinset (lowerL t.data)).card ≠ 0 := by
      intro hc
      exact htw (Finset.card_eq_zero.mp hc)
    unfold calculate_similarity_score
    rw [if_neg (by simp [ht])]
    simp only [List.foldl_cons, List.foldl_nil]
    unfold patternScore
    simp only []
    rw [Finset.union_self, Finset.inter_self, if_neg htw, mkRat_self _ hcard,
      if_pos (isSubL_self _)]
    show (1 : ℚ) ≤ max 0
      (if mkRat 7 10 < seqRatio (lowerL t.data) (lowerL t.data) then
        qadd (qadd 1 (mkRat 3 10))
          (qmul (seqRatio (lowerL t.data) (lowerL t.data)) (mkRat 2 10))
      else qadd 1 (mkRat 3 10))
    have h3 : (0 : ℚ) ≤ mkRat 3 10 := by decide
    have h7 : (0 : ℚ) ≤ mkRat 7 10 := by decide
    have h2 : (0 : ℚ) ≤ mkRat 2 10 := by decide
    refine le_trans ?_ (le_max_right 0 _)
    split_ifs with hlt
    · rw [qadd_eq, qadd_eq, qmul_eq]
      have hf0 := le_trans h7 (le_of_lt hlt)
      have := mul_nonneg hf0 h2
      linarith
    · rw [qadd_eq]
      linarith

/-- Witness for C2 at concrete texts and pattern lists. -/
theorem c2_witness :
    1 ≤ calculate_similarity_score "hello" ["hello"] ∧
    calculate_similarity_score "hello" ["big", "hello"] =
      ((["big", "hello"].map (claimContribution "hello")).foldr max 0) :=
  ⟨(c2_amended "hello" ["hello"]).2.2.2 (by decide),
   (c2_amended "hello" ["big", "hello"]).2.2.1 (by decide) (by decide)⟩

/-- C3, counterexample.  With history `["search for python tutorials"]` and
input `"tell me more about that"`, both strategies return unknown on the
follow-up alone, yet the resolved intent is not `"search_google"`: the
secondary oracle classifies the prior utterance as `"weather"`, whose
trigger table has no matching phrase, so the unknown hybrid result stands. -/
theorem c3_counterexample :
    cexSpacy (preprocess_text "tell me more about that") = "unknown" ∧
    (cexTransformer (preprocess_text "tell me more about that")).1 = "unknown" ∧
    (get_intent_with_context cexSpacy cexTransformer (some noNer)
        "tell me more about that" ["search for python tutorials"]).1 ≠
      "search_google" := by decide

/-- C3, amended.  The context resolver returns the hybrid result unchanged
unless that result is `"unknown"` with non-empty history, in which case the
most recent prior utterance is classified and the fixed trigger table
consulted; the override to `(last_intent, 0.7)` (with the already-extracted
entities) happens exactly when some trigger phrase of that entry occurs in
the lower-cased current text.  The `"tell me more about that"` /
`"search for python tutorials"` example yields `("search_google", 0.7)`
provided additionally that the hybrid classification of the prior
utterance yields `"search_google"`. -/
theorem c3_amended :
    (∀ (sp : String → String) (tr : String → String × ℚ)
        (nlpO : Option (String → List (String × String)))
        (text h0 : String) (hs : List String),
      ((get_intent_hybrid sp tr nlpO text).1 ≠ "unknown" →
        get_intent_with_context sp tr nlpO text (h0 :: hs) =
          get_intent_hybrid sp tr nlpO text) ∧
      ((get_intent_hybrid sp tr nlpO text).1 = "unknown" →
        (∀ pats,
          follow_up_patterns.lookup
              (get_intent_hybrid sp tr nlpO ((h0 :: hs).getLastD "")).1 =
            some pats →
          ((∃ p ∈ pats, isSubL p.data (lowerL text.data) = true) →
            get_intent_with_context sp tr nlpO text (h0 :: hs) =
              ((get_intent_hybrid sp tr nlpO ((h0 :: hs).getLastD "")).1,
                mkRat 7 10, (get_intent_hybrid sp tr nlpO text).2.2)) ∧
          ((∀ p ∈ pats, isSubL p.data (lowerL text.data) = false) →
            get_intent_with_context sp tr nlpO text (h0 :: hs) =
              get_intent_hybrid sp tr nlpO text)) ∧
        (follow_up_patterns.lookup
            (get_intent_hybrid sp tr nlpO ((h0 :: hs).getLastD "")).1 = none →
          get_intent_with_context sp tr nlpO text (h0 :: hs) =
            get_intent_hybrid sp tr nlpO text))) ∧
    (∀ (sp : String → String) (tr : String → String × ℚ)
        (nlpO : Option (String → List (String × String))),
      sp (preprocess_text "tell me more about that") = "unknown" →
      (tr (preprocess_text "tell me more about that")).1 = "unknown" →
      (get_intent_hybrid sp tr nlpO "search for python tutorials").1 =
        "search_google" →
      get_intent_with_context sp tr nlpO "tell me more about that"
          ["search for python tutorials"] =
        ("search_google", mkRat 7 10,
          extract_entities nlpO (preprocess_text "tell me more about that"))) := by
  constructor
  · intro sp tr nlpO text h0 hs
    refine ⟨fun hne => ?_,
      fun hunk => ⟨fun pats hlk => ⟨fun hex => ?_, fun hall => ?_⟩, fun hlk => ?_⟩⟩
    · unfold get_intent_with_context
      simp only []
      rw [if_neg (fun hc => hne hc.2)]
    · unfold get_intent_with_context
      simp only []
      rw [if_pos ⟨List.cons_ne_nil h0 hs, hunk⟩]
      split
      next pats2 heq =>
        rw [hlk] at heq
        injection heq with heq
        subst heq
        split
        next q hfq => rfl
        next hfq =>
          exfalso
          obtain ⟨p, hp, hsub⟩ := hex
          exact (List.find?_eq_none.mp hfq p hp) hsub
      next heq =>
        rw [hlk] at heq
        all_goals exact Option.noConfusion heq
    · unfold get_intent_with_context
      simp only []
      rw [if_pos ⟨List.cons_ne_nil h0 hs, hunk⟩]
      split
      next pats2 heq =>
        rw [hlk] at heq
        injection heq with heq
        subst heq
        split
        next q hfq =>
          exfalso
          have h2 := List.find?_some hfq
          rw [hall q (List.mem_of_find?_eq_some hfq)] at h2
          exact Bool.noConfusion h2
        next hfq => rfl
      next heq =>
        rw [hlk] at heq
        all_goals exact Option.noConfusion heq
    · unfold get_intent_with_context
      simp only []
      rw [if_pos ⟨List.cons_ne_nil h0 hs, hunk⟩]
      split
      next pats2 heq =>
        rw [hlk] at heq
        all_goals exact Option.noConfusion heq
      next heq => rfl
  · intro sp tr nlpO hsp htr hlast
    have hne : preprocess_text "tell me more about that" ≠ "" := by decide
    have hr :
        (get_intent_hybrid sp tr nlpO "tell me more about that").1 = "unknown" ∧
        (get_intent_hybrid sp tr nlpO "tell me more about that").2.2 =
          extract_entities nlpO (preprocess_text "tell me more about that") := by
      unfold get_intent_hybrid
      simp only []
      rw [if_neg hne, if_neg (fun hc => hc.2 hsp)]
      split_ifs with hc hc2
      · exact ⟨htr, rfl⟩
      · exact absurd hsp hc2
      · exact ⟨rfl, rfl⟩
    unfold get_intent_with_context
    simp only []
    rw [if_pos ⟨by simp, hr.1⟩]
    split
    next pats2 heq =>
      have heq2 : follow_up_patterns.lookup "search_google" = some pats2 := by
        rw [← hlast]
        exact heq
      have hlk : follow_up_patterns.lookup "search_google" =
          some ["more about", "tell me more", "additional info", "more details"] := by
        decide
      rw [hlk] at heq2
      injection heq2 with heq2
      subst heq2
      split
      next q hfq =>
        have h1 : (get_intent_hybrid sp tr nlpO
            ((["search for python tutorials"] : List String).getLastD "")).1 =
            "search_google" := hlast
        rw [h1, hr.2]
      next hfq =>
        exfalso
        have hfn :
            ((["more about", "tell me more", "additional info",
                "more details"] : List String).find? fun p =>
              isSubL p.data (lowerL "tell me more about that".data)) =
              some "more about" := by decide
        rw [hfn] at hfq
        simp at hfq
    next heq =>
      have heq2 : follow_up_patterns.lookup "search_google" = none := by
        rw [← hlast]
        exact heq
      have hlk : follow_up_patterns.lookup "search_google" =
          some ["more about", "tell me more", "additional info", "more details"] := by
        decide
      rw [hlk] at heq2
      exact Option.noConfusion heq2

/-- Witness for C3: concrete strategies that are unknown on the follow-up
while classifying the prior utterance as `search_google`. -/
theorem c3_witness :
    get_intent_with_context
        (fun t => if t = "search for python tutorials" then "search_google"
          else "unknown")
        (fun _ => ("unknown", 0)) (some noNer)
        "tell me more about that" ["search for python tutorials"] =
      ("search_google", mkRat 7 10,
        extract_entities (some noNer) (preprocess_text "tell me more about that")) :=
  c3_amended.2
    (fun t => if t = "search for python tutorials" then "search_google"
      else "unknown")
    (fun _ => ("unknown", 0)) (some noNer) (by decide) (by decide) (by decide)

theorem digit_bounds (c : Char) (h : isDigitC c = true) : '0' ≤ c ∧ c ≤ '9' := by
  unfold isDigitC at h
  rw [Bool.and_eq_true, decide_eq_true_eq, decide_eq_true_eq] at h
  exact h

theorem digit_ne_of_gt (c d : Char) (h : isDigitC c = true) (hd : '9' < d) :
    c ≠ d := by
  intro he
  subst he
  exact absurd ((digit_bounds c h).2) (not_le.mpr hd)

theorem digit_ne_of_lt (c d : Char) (h : isDigitC c = true) (hd : d < '0') :
    c ≠ d := by
  intro he
  subst he
  exact absurd ((digit_bounds c h).1) (not_le.mpr hd)

theorem digit_not_ws (c : Char) (h : isDigitC c = true) : isWsC c = false := by
  obtain ⟨h1, h2⟩ := digit_bounds c h
  unfold isWsC
  simp only [Bool.or_eq_false_iff, beq_eq_false_iff_ne, ne_eq]
  refine ⟨⟨⟨⟨⟨?_, ?_⟩, ?_⟩, ?_⟩, ?_⟩, ?_⟩ <;>
    · intro he
      subst he
      exact absurd h1 (by decide)

theorem digit_lower (c : Char) (h : isDigitC c = true) : lowerC c = c := by
  obtain ⟨h1, h2⟩ := digit_bounds c h
  unfold lowerC
  rw [if_neg]
  intro hc
  exact absurd (le_trans hc.1 h2) (by decide)

theorem isSubL_of_isPrefixOf (a s : List Char) (h : a.isPrefixOf s = true) :
    isSubL a s = true := by
  cases s with
  | nil =>
    have : a = [] := List.prefix_nil.mp (List.isPrefixOf_iff_prefix.mp h)
    subst this
    rfl
  | cons c t =>
    unfold isSubL
    rw [h]
    rfl

theorem searchPos_head {α : Type} (m : List Char → Option α) (s : List Char)
    (r : α) (h : m s = some r) : searchPos m s = some r := by
  cases s with
  | nil => simpa [searchPos] using h
  | cons c t =>
    unfold searchPos
    rw [h]

theorem mem_foldl_acc {β : Type} (f : List String → β → List String)
    (add : β → List String) (hf : ∀ acc b, f acc b = acc ++ add b) :
    ∀ (l : List β) (acc : List String) (x : String), x ∈ acc →
      x ∈ l.foldl f acc := by
  intro l
  induction l with
  | nil => intro acc x hx; simpa using hx
  | cons c cs ih =>
    intro acc x hx
    rw [List.foldl_cons]
    exact ih (f acc c) x (by rw [hf]; exact List.mem_append_left _ hx)

theorem mem_foldl_append {β : Type} (f : List String → β → List String)
    (add : β → List String) (hf : ∀ acc b, f acc b = acc ++ add b) :
    ∀ (l : List β) (acc : List String) (b : β), b ∈ l →
      ∀ x ∈ add b, x ∈ l.foldl f acc := by
  intro l
  induction l with
  | nil => intro acc b hb; cases hb
  | cons c cs ih =>
    intro acc b hb x hx
    rcases List.mem_cons.mp hb with rfl | hb
    · rw [List.foldl_cons]
      exact mem_foldl_acc f add hf cs (f acc b) x
        (by rw [hf]; exact List.mem_append_right _ hx)
    · rw [List.foldl_cons]
      exact ih (f acc c) b hb x hx

theorem takeWhile_all {p : Char → Bool} :
    ∀ (l : List Char), (∀ c ∈ l, p c = true) → l.takeWhile p = l := by
  intro l
  induction l with
  | nil => intro _; rfl
  | cons c t ih =>
    intro h
    rw [List.takeWhile_cons, if_pos (h c (List.mem_cons_self c t)),
      ih (fun x hx => h x (List.mem_cons_of_mem c hx))]

theorem dropWhile_ws_id (l : List Char) (h : ∀ c ∈ l, isWsC c = false) :
    l.dropWhile isWsC = l := by
  cases l with
  | nil => rfl
  | cons c t =>
    rw [List.dropWhile_cons, if_neg]
    simp [h c (List.mem_cons_self c t)]

theorem stripL_eq_self (l : List Char) (h : ∀ c ∈ l, isWsC c = false) :
    stripL l = l := by
  unfold stripL
  rw [dropWhile_ws_id l h,
    dropWhile_ws_id l.reverse (fun c hc => h c (List.mem_reverse.mp hc)),
    List.reverse_reverse]

theorem takeWhile_ws_nil (l : List Char) (h : ∀ c ∈ l, isWsC c = false) :
    l.takeWhile isWsC = [] := by
  cases l with
  | nil => rfl
  | cons c t =>
    rw [List.takeWhile_cons, if_neg]
    simp [h c (List.mem_cons_self c t)]

theorem tryWsThen_one {α : Type} (f : List Char → Option α) (c : Char)
    (s : List Char) (r : α) (h : f s = some r) :
    tryWsThen f (c :: s) 1 = some r := by
  have e : tryWsThen f (c :: s) 1 =
      match f s with
      | some x => some x
      | none => tryWsThen f (c :: s) 0 := rfl
  rw [e, h]

theorem dotPlus_all (w : List Char) (hne : w ≠ [])
    (hnl : ∀ c ∈ w, c ≠ '\n') : dotPlus w = some w := by
  unfold dotPlus
  simp only []
  rw [takeWhile_all w (fun c hc => decide_eq_true (hnl c hc)), if_neg hne]

theorem afterFor_plain (w : List Char) (hne : w ≠ [])
    (hws : ∀ c ∈ w, isWsC c = false) (hnl : ∀ c ∈ w, c ≠ '\n') :
    afterFor (' ' :: w) = some w := by
  unfold afterFor
  rw [show ((' ' :: w).takeWhile isWsC) = [' '] from by
    rw [List.takeWhile_cons, if_pos (show isWsC ' ' = true from rfl),
      takeWhile_ws_nil w hws]]
  exact tryWsThen_one dotPlus ' ' w w (dotPlus_all w hne hnl)

theorem kwTailStep_for (w : List Char) (hne : w ≠ [])
    (hws : ∀ c ∈ w, isWsC c = false) (hnl : ∀ c ∈ w, c ≠ '\n') :
    kwTailStep ('f' :: 'o' :: 'r' :: ' ' :: w) = some w := by
  have e : kwTailStep ('f' :: 'o' :: 'r' :: ' ' :: w) =
      match afterFor (' ' :: w) with
      | some r => some r
      | none => dotPlus ('f' :: 'o' :: 'r' :: ' ' :: w) := rfl
  rw [e, afterFor_plain w hne hws hnl]

theorem kwTail_for (w : List Char) (hne : w ≠ [])
    (hws : ∀ c ∈ w, isWsC c = false) (hnl : ∀ c ∈ w, c ≠ '\n') :
    kwTail (' ' :: 'f' :: 'o' :: 'r' :: ' ' :: w) = some w :=
  tryWsThen_one kwTailStep ' ' ('f' :: 'o' :: 'r' :: ' ' :: w) w
    (kwTailStep_for w hne hws hnl)

theorem search_query_extract (ner : String → List (String × String))
    (text : String) :
    (extract_entities (some ner) text).search_query =
      search_keywords.foldl
        (fun acc kw =>
          if isSubL kw.data text.data then
            match searchQueryFor kw.data text.data with
            | some g => acc ++ [(⟨stripL g⟩ : String)]
            | none => acc
          else acc)
        [] := rfl

theorem alarm_time_extract (ner : String → List (String × String))
    (text : String) :
    (extract_entities (some ner) text).alarm_time =
      ((scanAll matchAtHM text.data ++ scanAll matchHM text.data ++
        scanAll (matchDigitsAmPm matchAmPm) text.data ++
        scanAll (matchDigitsAmPm matchAmPmDots) text.data).map
          fun g => (⟨g⟩ : String)) := rfl

theorem scanAll_head {α : Type} (m : List Char → Option (ℕ × α)) (c : Char)
    (t : List Char) (n : ℕ) (v : α) (h : m (c :: t) = some (n, v)) :
    v ∈ scanAll m (c :: t) := by
  unfold scanAll
  rw [List.length_cons]
  unfold scanAllF
  rw [h]
  exact List.mem_cons_self _ _

theorem matchHM_one_digit (h1 m1 m2 : Char) (v : List Char)
    (hh : isDigitC h1 = true) (hm1 : isDigitC m1 = true)
    (hm2 : isDigitC m2 = true) :
    matchHM (h1 :: ':' :: m1 :: m2 :: v) = some (4, [h1, ':', m1, m2]) := by
  show (if isDigitC h1 = true then
          if isDigitC ':' = true then
            (if (':' : Char) = ':' ∧ isDigitC m1 = true ∧ isDigitC m2 = true then
              some (5, [h1, ':', ':', m1, m2])
            else none)
          else
            (if (':' : Char) = ':' ∧ isDigitC m1 = true ∧ isDigitC m2 = true then
              some (4, [h1, ':', m1, m2])
            else none)
        else none) = some (4, [h1, ':', m1, m2])
  rw [if_pos hh, if_neg (show ¬ (isDigitC ':' = true) by decide),
    if_pos ⟨rfl, hm1, hm2⟩]

theorem matchAtHM_at (h1 m1 m2 : Char) (v : List Char)
    (hh : isDigitC h1 = true) (hm1 : isDigitC m1 = true)
    (hm2 : isDigitC m2 = true) :
    matchAtHM ('a' :: 't' :: ' ' :: h1 :: ':' :: m1 :: m2 :: v) =
      some (7, [h1, ':', m1, m2]) := by
  have htw : (' ' :: h1 :: ':' :: m1 :: m2 :: v).takeWhile isWsC = [' '] := by
    rw [List.takeWhile_cons, if_pos (show isWsC ' ' = true from rfl),
      List.takeWhile_cons, if_neg (by simp [digit_not_ws h1 hh])]
  show (if (' ' :: h1 :: ':' :: m1 :: m2 :: v).takeWhile isWsC = [] then none
        else
          match matchHM ((' ' :: h1 :: ':' :: m1 :: m2 :: v).drop
              ((' ' :: h1 :: ':' :: m1 :: m2 :: v).takeWhile isWsC).length) with
          | some (n, g) =>
              some (2 + ((' ' :: h1 :: ':' :: m1 :: m2 :: v).takeWhile isWsC).length + n, g)
          | none => none) = some (7, [h1, ':', m1, m2])
  rw [htw, if_neg (show ¬ ([' '] : List Char) = [] by decide),
    show ((' ' :: h1 :: ':' :: m1 :: m2 :: v).drop ([' '] : List Char).length) =
      h1 :: ':' :: m1 :: m2 :: v from rfl,
    matchHM_one_digit h1 m1 m2 v hh hm1 hm2]
  rfl

/-- C2C4 helper: the search-regex candidate for a text of the shape
`kw ++ " for " ++ w` is `w` itself, for any well-behaved `w`. -/
theorem searchQueryFor_keyword (kw w : String) (hne : w.data ≠ [])
    (hws : ∀ c ∈ w.data, isWsC c = false) (hnl : ∀ c ∈ w.data, c ≠ '\n') :
    searchQueryFor kw.data (kw ++ (" for " ++ w)).data = some w.data := by
  have hdata : (kw ++ (" for " ++ w)).data =
      kw.data ++ (' ' :: 'f' :: 'o' :: 'r' :: ' ' :: w.data) := by
    rw [String.data_append, String.data_append]
    rfl
  rw [hdata]
  unfold searchQueryFor
  apply searchPos_head
  unfold matchKw
  rw [if_pos (List.isPrefixOf_iff_prefix.mpr (List.prefix_append _ _)),
    List.drop_left]
  exact kwTail_for w.data hne hws hnl

/-- C4: a text of the shape `kw ++ " for " ++ w` both triggers the keyword
substring test and yields `w` as the stripped captured query. -/
theorem isSubL_keyword (kw w : String) :
    isSubL kw.data (kw ++ (" for " ++ w)).data = true := by
  have hdata : (kw ++ (" for " ++ w)).data =
      kw.data ++ (' ' :: 'f' :: 'o' :: 'r' :: ' ' :: w.data) := by
    rw [String.data_append, String.data_append]
    rfl
  rw [hdata]
  exact isSubL_of_isPrefixOf _ _
    (List.isPrefixOf_iff_prefix.mpr (List.prefix_append _ _))

/-- C4 counterexample: when the NER collaborator is unavailable the
extractor does not merely leave `location`/`time` empty — it returns the
all-empty map, so the keyword-triggered `search_query` extraction does not
run either, although the very same text yields a query when NER is
available. -/
theorem c4_counterexample :
    (extract_entities none "search for cats").search_query = [] ∧
    (extract_entities (some noNer) "search for cats").search_query =
      ["cats"] := by
  constructor
  · rfl
  · decide

/-- C4 (amended): (a) in degraded mode (`nlp = None`) the extractor raises
no error but returns the all-empty entity map for every text — every list,
`search_query` and `alarm_time` included, is empty; (b) with NER available,
each trigger keyword occurring in the text contributes one stripped
captured query: for a text `kw ++ " for " ++ w` with `kw` a trigger keyword
and `w` a non-empty query without whitespace or newlines, `w` is among the
extracted `search_query` candidates; (c) with NER available, every
alarm-time regex match is appended: a text starting `at H:MM` (one hour
digit) yields `H:MM` among the extracted `alarm_time` values. -/
theorem c4_amended :
    (∀ text : String, extract_entities none text = emptyEntities) ∧
    (∀ (ner : String → List (String × String)) (kw w : String),
        kw ∈ search_keywords → w.data ≠ [] →
        (∀ c ∈ w.data, isWsC c = false) → (∀ c ∈ w.data, c ≠ '\n') →
        w ∈ (extract_entities (some ner) (kw ++ (" for " ++ w))).search_query) ∧
    (∀ (ner : String → List (String × String)) (h1 m1 m2 : Char)
        (v : List Char),
        isDigitC h1 = true → isDigitC m1 = true → isDigitC m2 = true →
        (⟨[h1, ':', m1, m2]⟩ : String) ∈
          (extract_entities (some ner)
            ⟨'a' :: 't' :: ' ' :: h1 :: ':' :: m1 :: m2 :: v⟩).alarm_time) := by
  refine ⟨fun _ => rfl, ?_, ?_⟩
  · intro ner kw w hkw hne hws hnl
    rw [search_query_extract]
    refine mem_foldl_append _
      (fun b =>
        if isSubL b.data (kw ++ (" for " ++ w)).data then
          (match searchQueryFor b.data (kw ++ (" for " ++ w)).data with
           | some g => [(⟨stripL g⟩ : String)]
           | none => [])
        else [])
      ?_ search_keywords [] kw hkw w ?_
    · intro acc b
      simp only []
      by_cases hs : isSubL b.data (kw ++ (" for " ++ w)).data = true
      · rw [if_pos hs, if_pos hs]
        cases hq : searchQueryFor b.data (kw ++ (" for " ++ w)).data with
        | none => rw [List.append_nil]
        | some g => rfl
      · rw [if_neg hs, if_neg hs, List.append_nil]
    · simp only []
      rw [if_pos (isSubL_keyword kw w),
        searchQueryFor_keyword kw w hne hws hnl]
      show w ∈ [(⟨stripL w.data⟩ : String)]
      rw [stripL_eq_self w.data hws]
      exact List.mem_singleton.mpr rfl
  · intro ner h1 m1 m2 v hh hm1 hm2
    rw [alarm_time_extract]
    refine List.mem_map.mpr ⟨[h1, ':', m1, m2], ?_, rfl⟩
    refine List.mem_append_left _ (List.mem_append_left _
      (List.mem_append_left _ ?_))
    exact scanAll_head matchAtHM 'a' ('t' :: ' ' :: h1 :: ':' :: m1 :: m2 :: v)
      7 [h1, ':', m1, m2] (matchAtHM_at h1 m1 m2 v hh hm1 hm2)

/-- C4 witness: the amended statement at concrete inputs — degraded mode on
a keyword text, the keyword capture `"cats"`, and the alarm time `1:30`. -/
theorem c4_witness :
    extract_entities none "search for cats" = emptyEntities ∧
    ("cats" : String) ∈
      (extract_entities (some noNer)
        ("search" ++ (" for " ++ "cats"))).search_query ∧
    ("1:30" : String) ∈
      (extract_entities (some noNer)
        ⟨'a' :: 't' :: ' ' :: '1' :: ':' :: '3' :: '0' :: []⟩).alarm_time :=
  ⟨c4_amended.1 "search for cats",
   c4_amended.2.1 noNer "search" "cats" (by decide) (by decide) (by decide)
     (by decide),
   c4_amended.2.2 noNer '1' '3' '0' [] (by decide) (by decide) (by decide)⟩

theorem dtKey_addOneDayD_gt (now : DT) (h24 mi : ℕ)
    (hmo : now.month ≤ 99) (hd : now.day ≤ 99) (hh : now.hour ≤ 23)
    (hmin : now.minute ≤ 59) (hh24 : h24 ≤ 99) (hmi : mi ≤ 99) :
    dtKey now < dtKey (addOneDayD { now with hour := h24, minute := mi }) := by
  unfold addOneDayD dtKey
  split_ifs with h1 h2 <;> simp only [] <;> omega

/-- C7: (A) any voice input whose normalized text matches only the bare
anchored `HH:MM am/pm` pattern and denotes a clock time not after `now`
parses to that time rolled forward one calendar day; the rolled time is
strictly in the future, so the alarm is created, not rejected.  (B) an
explicit strptime-valid literal `YYYY-MM-DD HH:MM am/pm` date-time (year
`≥ 1` included, per `datetime.MINYEAR`) lying in the past is rejected:
`set_alarm_voice` answers `pastRejected` (the user-facing `pastMessage`)
and creates nothing, for either value of the calendar collaborator's
flag. -/
theorem c7_time_parsing :
    (∀ (input : String) (now : DT) (h mi : ℕ) (pm : Bool),
      searchPos matchP1 (lowerL (stripL input.data)) = none →
      isSubL "tomorrow".data (lowerL (stripL input.data)) = false →
      ¬(isSubL "today".data (lowerL (stripL input.data)) = true ∨
        isSubL "at".data (lowerL (stripL input.data)) = true) →
      searchPos (matchRel "minute".data) (lowerL (stripL input.data)) = none →
      searchPos (matchRel "hour".data) (lowerL (stripL input.data)) = none →
      matchBare (lowerL (stripL input.data)) = some (h, mi, pm) →
      conv12 h pm ≤ 23 ∧ mi ≤ 59 →
      dtKey { now with hour := conv12 h pm, minute := mi } ≤ dtKey now →
      now.month ≤ 99 → now.day ≤ 99 → now.hour ≤ 23 → now.minute ≤ 59 →
      parse_voice_time input now =
        .parsed (addOneDayD { now with hour := conv12 h pm, minute := mi }) ∧
      dtKey now <
        dtKey (addOneDayD { now with hour := conv12 h pm, minute := mi }) ∧
      set_alarm_voice input now true =
        .created (addOneDayD { now with hour := conv12 h pm, minute := mi })) ∧
    (∀ (input : String) (now : DT) (y mo d h mi : ℕ) (pm : Bool)
      (createOk : Bool),
      searchPos matchP1 (lowerL (stripL input.data)) =
        some (y, mo, d, h, mi, pm) →
      1 ≤ y ∧ 1 ≤ mo ∧ mo ≤ 12 ∧ 1 ≤ d ∧ d ≤ daysInMonth y mo ∧
        conv12 h pm ≤ 23 ∧ mi ≤ 59 →
      dtKey ⟨y, mo, d, conv12 h pm, mi⟩ ≤ dtKey now →
      set_alarm_voice input now createOk = .pastRejected ∧
      pastMessage = "That time is in the past. Please specify a future time.") := by
  constructor
  · intro input now h mi pm hP1 htom hta hmin hhour hbare hvalid hpast
      hmo hd hh hminute
    have hgt : dtKey now <
        dtKey (addOneDayD { now with hour := conv12 h pm, minute := mi }) :=
      dtKey_addOneDayD_gt now (conv12 h pm) mi hmo hd hh hminute
        (le_trans hvalid.1 (by norm_num)) (le_trans hvalid.2 (by norm_num))
    have hparse : parse_voice_time input now =
        .parsed (addOneDayD { now with hour := conv12 h pm, minute := mi }) := by
      unfold parse_voice_time
      simp only []
      rw [hP1]
      show parseP2 (lowerL (stripL input.data)) now = _
      unfold parseP2
      rw [if_neg (by simp [htom])]
      unfold parseP3
      rw [if_neg hta]
      unfold parseP45
      rw [hmin]
      show (match searchPos (matchRel "hour".data)
              (lowerL (stripL input.data)) with
            | some n => ParseResult.parsed (addMinutesD now (n * 60))
            | none => parseP6 (lowerL (stripL input.data)) now) = _
      rw [hhour]
      show parseP6 (lowerL (stripL input.data)) now = _
      unfold parseP6
      rw [hbare]
      simp only []
      rw [if_pos hvalid, if_pos hpast]
    refine ⟨hparse, hgt, ?_⟩
    unfold set_alarm_voice
    rw [hparse]
    simp only []
    rw [if_neg (not_le.mpr hgt)]
    rfl
  · intro input now y mo d h mi pm createOk hP1 hvalid hpast
    have hparse : parse_voice_time input now =
        .parsed ⟨y, mo, d, conv12 h pm, mi⟩ := by
      unfold parse_voice_time
      simp only []
      rw [hP1]
      simp only []
      rw [if_pos hvalid]
    refine ⟨?_, rfl⟩
    unfold set_alarm_voice
    rw [hparse]
    simp only []
    rw [if_pos hpast]

/-- C7 witness: `"3:00 pm"` spoken at 2026-10-12 17:00 rolls to the next
day and is created; the literal past date `"2020-01-15 3:00 pm"` is
rejected with the past-time message. -/
theorem c7_witness :
    (parse_voice_time "3:00 pm" ⟨2026, 10, 12, 17, 0⟩ =
        .parsed (addOneDayD { (⟨2026, 10, 12, 17, 0⟩ : DT) with
          hour := conv12 3 true, minute := 0 }) ∧
      dtKey (⟨2026, 10, 12, 17, 0⟩ : DT) <
        dtKey (addOneDayD { (⟨2026, 10, 12, 17, 0⟩ : DT) with
          hour := conv12 3 true, minute := 0 }) ∧
      set_alarm_voice "3:00 pm" ⟨2026, 10, 12, 17, 0⟩ true =
        .created (addOneDayD { (⟨2026, 10, 12, 17, 0⟩ : DT) with
          hour := conv12 3 true, minute := 0 })) ∧
    (set_alarm_voice "2020-01-15 3:00 pm" ⟨2026, 10, 12, 17, 0⟩ true =
        .pastRejected ∧
      pastMessage = "That time is in the past. Please specify a future time.") :=
  ⟨c7_time_parsing.1 "3:00 pm" ⟨2026, 10, 12, 17, 0⟩ 3 0 true (by decide)
      (by decide) (by decide) (by decide) (by decide) (by decide) (by decide)
      (by decide) (by decide) (by decide) (by decide) (by decide),
    c7_time_parsing.2 "2020-01-15 3:00 pm" ⟨2026, 10, 12, 17, 0⟩ 2020 1 15 3 0
      true true (by decide) (by decide) (by decide)⟩

theorem matchHM_cons (d1 d2 : Char) (rest : List Char) :
    matchHM (d1 :: d2 :: rest) =
      if isDigitC d1 = true then
        if isDigitC d2 = true then
          (match rest with
           | c :: x :: y :: _ =>
             if c = ':' ∧ isDigitC x = true ∧ isDigitC y = true then
               some (5, [d1, d2, ':', x, y])
             else none
           | _ => none)
        else
          (match rest with
           | x :: y :: _ =>
             if d2 = ':' ∧ isDigitC x = true ∧ isDigitC y = true then
               some (4, [d1, ':', x, y])
             else none
           | _ => none)
      else none := rfl

theorem matchHM_structure (s : List Char) (n : ℕ) (g : List Char)
    (h : matchHM s = some (n, g)) :
    ∃ taken rest, s = taken ++ rest ∧ taken.length = n ∧
      ∀ c ∈ taken, isDigitC c = true ∨ c = ':' := by
  match s with
  | [] => exact Option.noConfusion h
  | [d] => exact Option.noConfusion h
  | d1 :: d2 :: rest =>
    rw [matchHM_cons] at h
    by_cases hd1 : isDigitC d1 = true
    · rw [if_pos hd1] at h
      by_cases hd2 : isDigitC d2 = true
      · rw [if_pos hd2] at h
        match rest with
        | [] => exact Option.noConfusion h
        | [c] => exact Option.noConfusion h
        | [c, x] => exact Option.noConfusion h
        | c :: x :: y :: tail =>
          have h2 : (if c = ':' ∧ isDigitC x = true ∧ isDigitC y = true then
              some (5, [d1, d2, ':', x, y])
            else (none : Option (ℕ × List Char))) = some (n, g) := h
          split_ifs at h2 with hc
          · injection h2 with h1
            injection h1 with hn hg
            refine ⟨[d1, d2, c, x, y], tail, rfl, by rw [← hn]; rfl, ?_⟩
            intro ch hch
            simp only [List.mem_cons, List.not_mem_nil, or_false] at hch
            rcases hch with rfl | rfl | rfl | rfl | rfl
            · exact Or.inl hd1
            · exact Or.inl hd2
            · exact Or.inr hc.1
            · exact Or.inl hc.2.1
            · exact Or.inl hc.2.2
      · rw [if_neg hd2] at h
        match rest with
        | [] => exact Option.noConfusion h
        | [x] => exact Option.noConfusion h
        | x :: y :: tail =>
          have h2 : (if d2 = ':' ∧ isDigitC x = true ∧ isDigitC y = true then
              some (4, [d1, ':', x, y])
            else (none : Option (ℕ × List Char))) = some (n, g) := h
          split_ifs at h2 with hc
          · injection h2 with h1
            injection h1 with hn hg
            refine ⟨[d1, d2, x, y], tail, rfl, by rw [← hn]; rfl, ?_⟩
            intro ch hch
            simp only [List.mem_cons, List.not_mem_nil, or_false] at hch
            rcases hch with rfl | rfl | rfl | rfl
            · exact Or.inl hd1
            · exact Or.inr hc.1
            · exact Or.inl hc.2.1
            · exact Or.inl hc.2.2
    · rw [if_neg hd1] at h
      exact Option.noConfusion h

theorem takeWhile_append_drop (p : Char → Bool) (l : List Char) :
    l.takeWhile p ++ l.drop (l.takeWhile p).length = l := by
  induction l with
  | nil => rfl
  | cons c t ih =>
    by_cases hp : p c = true
    · rw [List.takeWhile_cons, if_pos hp]
      show c :: (t.takeWhile p ++ (c :: t).drop ((t.takeWhile p).length + 1)) = c :: t
      rw [show (c :: t).drop ((t.takeWhile p).length + 1) =
        t.drop (t.takeWhile p).length from rfl, ih]
    · rw [List.takeWhile_cons, if_neg hp]
      rfl

theorem matchAtHM_cons (c0 c1 : Char) (r : List Char) :
    matchAtHM (c0 :: c1 :: r) =
      if lowerC c0 = 'a' ∧ lowerC c1 = 't' then
        if r.takeWhile isWsC = [] then none
        else
          (match matchHM (r.drop (r.takeWhile isWsC).length) with
           | some (n, g) => some (2 + (r.takeWhile isWsC).length + n, g)
           | none => none)
      else none := rfl

theorem matchAtHM_structure (s : List Char) (k : ℕ) (g : List Char)
    (h : matchAtHM s = some (k, g)) :
    ∃ c0 c1 ws taken rest, s = c0 :: c1 :: (ws ++ (taken ++ rest)) ∧
      lowerC c1 = 't' ∧ (∀ c ∈ ws, isWsC c = true) ∧
      (∀ c ∈ taken, isDigitC c = true ∨ c = ':') ∧
      k = 2 + ws.length + taken.length := by
  match s with
  | [] => exact Option.noConfusion h
  | [c] => exact Option.noConfusion h
  | c0 :: c1 :: r =>
    rw [matchAtHM_cons] at h
    by_cases hc : lowerC c0 = 'a' ∧ lowerC c1 = 't'
    · rw [if_pos hc] at h
      by_cases hw : r.takeWhile isWsC = []
      · rw [if_pos hw] at h
        exact Option.noConfusion h
      · rw [if_neg hw] at h
        cases hm : matchHM (r.drop (r.takeWhile isWsC).length) with
        | none =>
          rw [hm] at h
          exact Option.noConfusion h
        | some p =>
          obtain ⟨n, g'⟩ := p
          rw [hm] at h
          have h2 : (some (2 + (r.takeWhile isWsC).length + n, g') :
              Option (ℕ × List Char)) = some (k, g) := h
          injection h2 with h3
          injection h3 with hk hg
          obtain ⟨taken, rest, hsplit, hlen, hcls⟩ := matchHM_structure _ _ _ hm
          refine ⟨c0, c1, r.takeWhile isWsC, taken, rest, ?_, hc.2, ?_, hcls, ?_⟩
          · have hr := takeWhile_append_drop isWsC r
            rw [hsplit] at hr
            rw [hr]
          · exact fun c hc2 => List.mem_takeWhile_imp hc2
          · rw [← hk, hlen]
    · rw [if_neg hc] at h
      exact Option.noConfusion h

theorem mem_of_append_eq_append {α : Type} :
    ∀ (p l1 : List α) (a : α) (l2 r : List α),
      l1 ++ a :: l2 = p ++ r → l1.length < p.length → a ∈ p := by
  intro p
  induction p with
  | nil =>
    intro l1 a l2 r _ hlen
    exact absurd hlen (by simp)
  | cons x p' ih =>
    intro l1 a l2 r h hlen
    cases l1 with
    | nil =>
      injection h with h1 _
      exact h1 ▸ List.mem_cons_self x p'
    | cons y l1' =>
      injection h with _ h2
      exact List.mem_cons_of_mem x (ih l1' a l2 r h2 (by simpa using hlen))

theorem mem_of_suffix_last {α : Type} (p u2 x : List α) (a : α)
    (h : p ++ u2 = x ++ [a]) (hne : u2 ≠ []) : a ∈ u2 := by
  have hr := congrArg List.reverse h
  rw [List.reverse_append, List.reverse_append, List.reverse_singleton] at hr
  cases hu : u2.reverse with
  | nil => exact absurd (List.reverse_eq_nil_iff.mp hu) hne
  | cons b t =>
    rw [hu, List.cons_append,
      show ([a] ++ x.reverse : List α) = a :: x.reverse from rfl] at hr
    injection hr with hb _
    have : b ∈ u2.reverse := hu ▸ List.mem_cons_self b t
    rw [List.mem_reverse] at this
    exact hb ▸ this

theorem matchAtHM_no_cross (u2 rest2 : List Char) (hne : u2 ≠ [])
    (k : ℕ) (w : List Char)
    (h : matchAtHM (u2 ++ 'a' :: rest2) = some (k, w)) :
    max k 1 ≤ u2.length := by
  obtain ⟨c0, c1, ws, taken, r, hs, hc1, hws, htk, hk⟩ :=
    matchAtHM_structure _ _ _ h
  rcases le_or_lt k u2.length with hle | hgt
  · have h1 : 1 ≤ u2.length := by
      cases u2 with
      | nil => exact absurd rfl hne
      | cons _ _ => simp
    exact max_le hle h1
  · exfalso
    cases u2 with
    | nil => exact hne rfl
    | cons u0 u2' =>
      injection hs with h0 hs1
      have hmem : 'a' ∈ c1 :: (ws ++ taken) := by
        apply mem_of_append_eq_append (c1 :: (ws ++ taken)) u2' 'a' rest2 r
        · rw [List.cons_append, List.append_assoc]
          exact hs1
        · have : u2'.length + 1 < k := by simpa using hgt
          simp only [List.length_cons, List.length_append]
          omega
      rcases List.mem_cons.mp hmem with h1 | h2
      · rw [← h1] at hc1
        exact absurd hc1 (by decide)
      · rcases List.mem_append.mp h2 with hw | ht
        · exact absurd (hws 'a' hw) (by decide)
        · rcases htk 'a' ht with hd | hcol
          · exact absurd hd (by decide)
          · exact absurd hcol (by decide)

theorem matchHM_no_cross (u2 rest2 : List Char) (hne : u2 ≠ [])
    (hsp : ' ' ∈ u2) (n : ℕ) (w : List Char)
    (h : matchHM (u2 ++ rest2) = some (n, w)) : max n 1 ≤ u2.length := by
  obtain ⟨taken, r, hs, hlen, hcls⟩ := matchHM_structure _ _ _ h
  rcases le_or_lt n u2.length with hle | hgt
  · have h1 : 1 ≤ u2.length := by
      cases u2 with
      | nil => exact absurd rfl hne
      | cons _ _ => simp
    exact max_le hle h1
  · exfalso
    have hp1 : u2 <+: taken := by
      refine List.prefix_of_prefix_length_le (List.prefix_append u2 rest2)
        ?_ (by omega)
      rw [hs]
      exact List.prefix_append taken r
    have : ' ' ∈ taken := hp1.subset hsp
    rcases hcls ' ' this with hd | hc
    · exact absurd hd (by decide)
    · exact absurd hc (by decide)

theorem scanAllF_mem {α : Type} (m : List Char → Option (ℕ × α)) (v : α)
    (rest : List Char) (n0 : ℕ) (hrest : rest ≠ [])
    (hm : m rest = some (n0, v)) :
    ∀ (fuel : ℕ) (u : List Char), u.length + rest.length ≤ fuel →
      (∀ u2, u2 ≠ [] → u2 <:+ u → ∀ k w, m (u2 ++ rest) = some (k, w) →
        max k 1 ≤ u2.length) →
      v ∈ scanAllF m (u ++ rest) fuel := by
  intro fuel
  induction fuel with
  | zero =>
    intro u hlen _
    exfalso
    cases rest with
    | nil => exact hrest rfl
    | cons c t => simp at hlen
  | succ f ih =>
    intro u hlen hnc
    cases u with
    | nil =>
      rw [List.nil_append]
      cases rest with
      | nil => exact absurd rfl hrest
      | cons c t =>
        unfold scanAllF
        rw [hm]
        exact List.mem_cons_self _ _
    | cons c ut =>
      rw [List.cons_append]
      cases hm2 : m (c :: (ut ++ rest)) with
      | none =>
        unfold scanAllF
        rw [hm2]
        exact ih ut (by simp at hlen ⊢; omega)
          (fun u2 h1 h2 k w h3 => hnc u2 h1 (h2.trans (List.suffix_cons c ut)) k w h3)
      | some p =>
        obtain ⟨k, w⟩ := p
        have hk : max k 1 ≤ (c :: ut).length := by
          refine hnc (c :: ut) (by simp) List.suffix_rfl k w ?_
          rw [List.cons_append]
          exact hm2
        have hdrop : (c :: (ut ++ rest)).drop (max k 1) =
            ((c :: ut).drop (max k 1)) ++ rest := by
          rw [show c :: (ut ++ rest) = (c :: ut) ++ rest from rfl,
            List.drop_append_of_le_length hk]
        unfold scanAllF
        rw [hm2]
        refine List.mem_cons_of_mem w ?_
        rw [hdrop]
        refine ih ((c :: ut).drop (max k 1)) ?_ ?_
        · rw [List.length_drop]
          simp only [List.length_cons] at hlen hk ⊢
          omega
        · exact fun u2 h1 h2 k' w' h3 =>
            hnc u2 h1 (h2.trans (List.drop_suffix _ _)) k' w' h3

theorem matchHM_two_digit (h1 h2 m1 m2 : Char) (v : List Char)
    (hh1 : isDigitC h1 = true) (hh2 : isDigitC h2 = true)
    (hm1 : isDigitC m1 = true) (hm2 : isDigitC m2 = true) :
    matchHM (h1 :: h2 :: ':' :: m1 :: m2 :: v) =
      some (5, [h1, h2, ':', m1, m2]) := by
  rw [matchHM_cons, if_pos hh1, if_pos hh2]
  have h3 : (if (':' : Char) = ':' ∧ isDigitC m1 = true ∧ isDigitC m2 = true
      then some (5, [h1, h2, ':', m1, m2])
      else (none : Option (ℕ × List Char))) =
      (match ':' :: m1 :: m2 :: v with
       | c :: x :: y :: _ =>
         if c = ':' ∧ isDigitC x = true ∧ isDigitC y = true then
           some (5, [h1, h2, ':', x, y])
         else none
       | _ => none) := rfl
  rw [← h3, if_pos ⟨rfl, hm1, hm2⟩]

theorem matchAtHM_build (rest' : List Char) (n : ℕ) (g : List Char)
    (hws0 : rest'.takeWhile isWsC = [])
    (hm : matchHM rest' = some (n, g)) :
    matchAtHM ('a' :: 't' :: ' ' :: rest') = some (2 + 1 + n, g) := by
  have htw : (' ' :: rest').takeWhile isWsC = [' '] := by
    rw [List.takeWhile_cons, if_pos (show isWsC ' ' = true from rfl), hws0]
  rw [matchAtHM_cons, if_pos (⟨rfl, rfl⟩ : lowerC 'a' = 'a' ∧ lowerC 't' = 't'),
    htw, if_neg (show ¬ ([' '] : List Char) = [] by decide),
    show ((' ' :: rest').drop ([' '] : List Char).length) = rest' from rfl, hm]
  rfl

/-- C9: the alarm-time regex list contains both the `at H:MM` pattern and
the bare `H:MM` pattern and every match of every pattern is appended, so
any text containing the phrase `at H:MM` (one or two hour digits) yields
that clock-time value at least twice in the extracted `alarm_time` list. -/
theorem c9_duplicate_alarm_times
    (ner : String → List (String × String)) (u v hd : List Char)
    (m1 m2 : Char) (hhd : ∀ c ∈ hd, isDigitC c = true)
    (hlen : hd.length = 1 ∨ hd.length = 2)
    (hm1 : isDigitC m1 = true) (hm2 : isDigitC m2 = true) :
    2 ≤ ((extract_entities (some ner)
        ⟨u ++ ('a' :: 't' :: ' ' :: (hd ++ ':' :: m1 :: m2 :: v))⟩).alarm_time).count
      (⟨hd ++ ':' :: m1 :: m2 :: []⟩ : String) := by
  obtain ⟨nX, hHM⟩ : ∃ nX, matchHM (hd ++ ':' :: m1 :: m2 :: v) =
      some (nX, hd ++ ':' :: m1 :: m2 :: []) := by
    rcases hd with _ | ⟨a, _ | ⟨b, _ | ⟨c, t⟩⟩⟩
    · simp at hlen
    · exact ⟨4, matchHM_one_digit a m1 m2 v (hhd a (by simp)) hm1 hm2⟩
    · exact ⟨5, matchHM_two_digit a b m1 m2 v (hhd a (by simp))
        (hhd b (by simp)) hm1 hm2⟩
    · simp at hlen
  have hws0 : (hd ++ ':' :: m1 :: m2 :: v).takeWhile isWsC = [] := by
    rcases hd with _ | ⟨a, t⟩
    · rfl
    · rw [show (a :: t) ++ ':' :: m1 :: m2 :: v =
          a :: (t ++ ':' :: m1 :: m2 :: v) from rfl,
        List.takeWhile_cons, if_neg (by simp [digit_not_ws a (hhd a (by simp))])]
  have hAT : matchAtHM ('a' :: 't' :: ' ' :: (hd ++ ':' :: m1 :: m2 :: v)) =
      some (2 + 1 + nX, hd ++ ':' :: m1 :: m2 :: []) :=
    matchAtHM_build _ _ _ hws0 hHM
  have hmem1 : (hd ++ ':' :: m1 :: m2 :: []) ∈
      scanAll matchAtHM
        (u ++ ('a' :: 't' :: ' ' :: (hd ++ ':' :: m1 :: m2 :: v))) :=
    scanAllF_mem matchAtHM _ _ _ (by simp) hAT
      (u ++ ('a' :: 't' :: ' ' :: (hd ++ ':' :: m1 :: m2 :: v))).length u
      (by simp)
      (fun u2 h1 _ k w h3 => matchAtHM_no_cross u2 _ h1 k w h3)
  have hre : u ++ ('a' :: 't' :: ' ' :: (hd ++ ':' :: m1 :: m2 :: v)) =
      (u ++ ['a', 't', ' ']) ++ (hd ++ ':' :: m1 :: m2 :: v) := by
    rw [List.append_assoc]
    rfl
  have hmem2 : (hd ++ ':' :: m1 :: m2 :: []) ∈
      scanAll matchHM
        (u ++ ('a' :: 't' :: ' ' :: (hd ++ ':' :: m1 :: m2 :: v))) := by
    rw [hre]
    refine scanAllF_mem matchHM _ _ _ (by simp) hHM
      ((u ++ ['a', 't', ' ']) ++ (hd ++ ':' :: m1 :: m2 :: v)).length
      (u ++ ['a', 't', ' ']) (by simp; omega) ?_
    intro u2 h1 h2 k w h3
    obtain ⟨p, hp⟩ := h2
    refine matchHM_no_cross u2 _ h1 ?_ k w h3
    refine mem_of_suffix_last p u2 (u ++ ['a', 't']) ' ' ?_ h1
    rw [hp, List.append_assoc]
    rfl
  have hdata : (⟨u ++ ('a' :: 't' :: ' ' :: (hd ++ ':' :: m1 :: m2 :: v))⟩ :
      String).data = u ++ ('a' :: 't' :: ' ' :: (hd ++ ':' :: m1 :: m2 :: v)) :=
    rfl
  rw [alarm_time_extract, hdata, List.map_append, List.map_append,
    List.map_append, List.count_append, List.count_append, List.count_append]
  have hc1 : 0 < ((scanAll matchAtHM
      (u ++ ('a' :: 't' :: ' ' :: (hd ++ ':' :: m1 :: m2 :: v)))).map
        fun g => (⟨g⟩ : String)).count
      (⟨hd ++ ':' :: m1 :: m2 :: []⟩ : String) :=
    List.count_pos_iff.mpr (List.mem_map.mpr ⟨_, hmem1, rfl⟩)
  have hc2 : 0 < ((scanAll matchHM
      (u ++ ('a' :: 't' :: ' ' :: (hd ++ ':' :: m1 :: m2 :: v)))).map
        fun g => (⟨g⟩ : String)).count
      (⟨hd ++ ':' :: m1 :: m2 :: []⟩ : String) :=
    List.count_pos_iff.mpr (List.mem_map.mpr ⟨_, hmem2, rfl⟩)
  omega

/-- C9 witness: `"set alarm at 10:30"` contains `10:30` at least twice in
the extracted alarm-time list. -/
theorem c9_witness :
    2 ≤ ((extract_entities (some noNer)
        ⟨"set alarm ".data ++
          ('a' :: 't' :: ' ' :: (['1', '0'] ++ ':' :: '3' :: '0' :: []))⟩).alarm_time).count
      (⟨['1', '0'] ++ ':' :: '3' :: '0' :: []⟩ : String) :=
  c9_duplicate_alarm_times noNer "set alarm ".data [] ['1', '0'] '3' '0'
    (by decide) (by decide) (by decide) (by decide)

theorem lowerC_idem (c : Char) : lowerC (lowerC c) = lowerC c := by
  by_cases h : 'A' ≤ c ∧ c ≤ 'Z'
  · have e1 : lowerC c = Char.ofNat (c.toNat + 32) := by
      unfold lowerC
      rw [if_pos h]
    rw [e1]
    have ht : (Char.ofNat (c.toNat + 32)).toNat = c.toNat + 32 := by
      have h2 : c.toNat ≤ 90 := h.2
      have hv : Nat.isValidChar (c.toNat + 32) := Or.inl (by omega)
      rw [Char.ofNat, dif_pos hv]
      rfl
    unfold lowerC
    rw [if_neg]
    intro hc
    have hc2 : (Char.ofNat (c.toNat + 32)).toNat ≤ 90 := hc.2
    have h1 : 65 ≤ c.toNat := h.1
    rw [ht] at hc2
    omega
  · have e1 : lowerC c = c := by
      unfold lowerC
      rw [if_neg h]
    rw [e1, e1]

theorem isSubL_infix_iff (a : List Char) :
    ∀ s, isSubL a s = true ↔ a <:+: s := by
  intro s
  induction s with
  | nil =>
    simp only [isSubL, List.isEmpty_iff, List.infix_nil]
  | cons c t ih =>
    simp only [isSubL, Bool.or_eq_true, List.isPrefixOf_iff_prefix, ih,
      List.infix_cons_iff]

theorem prefix_split (a l₁ l₂ : List Char) (h : a <+: l₁ ++ l₂) :
    a <+: l₁ ∨ ∃ a₂, a = l₁ ++ a₂ ∧ a₂ <+: l₂ := by
  rcases Nat.le_or_ge a.length l₁.length with hle | hge
  · exact Or.inl (List.prefix_of_prefix_length_le h (List.prefix_append l₁ l₂) hle)
  · right
    have hl : l₁ <+: a :=
      List.prefix_of_prefix_length_le (List.prefix_append l₁ l₂) h hge
    obtain ⟨a₂, ha₂⟩ := hl
    refine ⟨a₂, ha₂.symm, ?_⟩
    obtain ⟨r, hr⟩ := h
    rw [← ha₂] at hr
    rw [List.append_assoc] at hr
    exact ⟨r, (List.append_cancel_left hr :)⟩

theorem infix_append_split (a l₁ l₂ : List Char) (h : a <:+: l₁ ++ l₂) :
    a <:+: l₁ ∨ a <:+: l₂ ∨
      ∃ a₁ a₂, a = a₁ ++ a₂ ∧ a₁ ≠ [] ∧ a₂ ≠ [] ∧ a₁ <:+ l₁ ∧ a₂ <+: l₂ := by
  induction l₁ with
  | nil => exact Or.inr (Or.inl (by simpa using h))
  | cons x l₁' ih =>
    rw [show (x :: l₁') ++ l₂ = x :: (l₁' ++ l₂) from rfl,
      List.infix_cons_iff] at h
    rcases h with hpre | hinf
    · rcases prefix_split a (x :: l₁') l₂ (by simpa using hpre) with h1 | ⟨a₂, ha, h2⟩
      · exact Or.inl h1.isInfix
      · by_cases h0 : a₂ = []
        · subst h0
          rw [List.append_nil] at ha
          exact Or.inl (ha ▸ List.infix_rfl)
        · exact Or.inr (Or.inr ⟨x :: l₁', a₂, ha, by simp, h0,
            List.suffix_rfl, h2⟩)
    · rcases ih hinf with h1 | h2 | ⟨a₁, a₂, ha, hne1, hne2, hs, hp⟩
      · exact Or.inl (h1.trans (List.infix_cons List.infix_rfl))
      · exact Or.inr (Or.inl h2)
      · exact Or.inr (Or.inr ⟨a₁, a₂, ha, hne1, hne2,
          hs.trans (List.suffix_cons x l₁'), hp⟩)

theorem sfx_pfx_glue (a₁ a₂ x y : List Char)
    (h1 : a₁ <:+ x) (h2 : a₂ <+: y) : a₁ ++ a₂ <:+: x ++ y := by
  obtain ⟨p, hp⟩ := h1
  obtain ⟨r, hr⟩ := h2
  exact ⟨p, r, by rw [← hp, ← hr]; simp [List.append_assoc]⟩

theorem prefix_append_left (x : List Char) {l m : List Char} (h : l <+: m) :
    x ++ l <+: x ++ m := by
  obtain ⟨r, hr⟩ := h
  exact ⟨r, by rw [List.append_assoc, hr]⟩

theorem interCons (k a b : List Char) (rest : List (List Char)) :
    List.intercalate k (a :: b :: rest) =
      a ++ (k ++ List.intercalate k (b :: rest)) := by
  simp [List.intercalate, List.intersperse]

theorem replF_cons (k e : List Char) (c : Char) (cs : List Char) (f : ℕ) :
    replF k e (c :: cs) (f + 1) =
      if k ≠ [] ∧ k.isPrefixOf (c :: cs) then
        e ++ replF k e ((c :: cs).drop k.length) f
      else
        c :: replF k e cs f := rfl

theorem replF_id (k e : List Char) :
    ∀ (fuel : ℕ) (s : List Char), ¬ k <:+: s → replF k e s fuel = s := by
  intro fuel
  induction fuel with
  | zero =>
    intro s _
    cases s <;> rfl
  | succ f ih =>
    intro s habs
    cases s with
    | nil => rfl
    | cons c cs =>
      rw [replF_cons, if_neg, ih cs]
      · intro hinf
        exact habs (hinf.trans (List.infix_cons List.infix_rfl))
      · rintro ⟨-, hpre⟩
        exact habs (List.isPrefixOf_iff_prefix.mp hpre).isInfix

theorem replC_id (k e s : List Char) (habs : ¬ k <:+: s) : replC k e s = s :=
  replF_id k e s.length s habs

theorem intercalate_single (k seg : List Char) :
    List.intercalate k [seg] = seg := by
  simp [List.intercalate, List.intersperse]

theorem intercalate_cons_ne (k seg : List Char) (rest : List (List Char))
    (h : rest ≠ []) :
    List.intercalate k (seg :: rest) =
      seg ++ (k ++ List.intercalate k rest) := by
  cases rest with
  | nil => exact absurd rfl h
  | cons b r => exact interCons k seg b r

theorem intercalate_eq_append_segCont (k seg : List Char)
    (rest : List (List Char)) :
    List.intercalate k (seg :: rest) = seg ++ segCont k rest := by
  by_cases h : rest = []
  · subst h
    rw [intercalate_single]
    simp [segCont]
  · rw [intercalate_cons_ne k seg rest h]
    simp [segCont, h]

theorem replF_struct (k e : List Char) (hk : k ≠ []) :
    ∀ (fuel : ℕ) (s : List Char), s.length ≤ fuel →
      ∃ segs, segs ≠ [] ∧ s = List.intercalate k segs ∧
        replF k e s fuel = List.intercalate e segs ∧ SegsOK k segs := by
  intro fuel
  induction fuel with
  | zero =>
    intro s hlen
    have hs : s = [] := by
      cases s with
      | nil => rfl
      | cons c cs => simp at hlen
    subst hs
    refine ⟨[[]], by simp, by rw [intercalate_single], by rw [intercalate_single]; rfl, ?_, trivial⟩
    intro s₂ hsuf hne
    rw [List.suffix_nil] at hsuf
    exact absurd hsuf hne
  | succ f ih =>
    intro s hlen
    cases s with
    | nil =>
      refine ⟨[[]], by simp, by rw [intercalate_single], by rw [intercalate_single]; rfl, ?_, trivial⟩
      intro s₂ hsuf hne
      rw [List.suffix_nil] at hsuf
      exact absurd hsuf hne
    | cons c cs =>
      by_cases hm : k.isPrefixOf (c :: cs) = true
      · -- a key occurrence starts here
        have hpre : k <+: c :: cs := List.isPrefixOf_iff_prefix.mp hm
        obtain ⟨tail', htail'⟩ := hpre
        have hdrop : (c :: cs).drop k.length = tail' := by
          rw [← htail', List.drop_left]
        have hlen' : tail'.length ≤ f := by
          have hlen2 : k.length + tail'.length = cs.length + 1 := by
            have := congrArg List.length htail'
            simpa using this
          have hk1 : 1 ≤ k.length := by
            cases k with
            | nil => exact absurd rfl hk
            | cons _ _ => simp
          simp only [List.length_cons] at hlen
          omega
        obtain ⟨segs', hne', hseq', hout', hOK'⟩ := ih tail' hlen'
        refine ⟨[] :: segs', by simp, ?_, ?_, ?_, hOK'⟩
        · rw [intercalate_cons_ne k [] segs' hne', List.nil_append, ← hseq',
            htail']
        · rw [replF_cons, if_pos ⟨hk, hm⟩, hdrop, hout',
            intercalate_cons_ne e [] segs' hne', List.nil_append]
        · intro s₂ hsuf hne
          rw [List.suffix_nil] at hsuf
          exact absurd hsuf hne
      · -- no occurrence starts here
        have hnm : ¬ k <+: c :: cs := fun hp =>
          hm (List.isPrefixOf_iff_prefix.mpr hp)
        obtain ⟨segs', hne', hseq', hout', hOK'⟩ := ih cs (by simpa using hlen)
        cases segs' with
        | nil => exact absurd rfl hne'
        | cons seg₁ rest =>
          refine ⟨(c :: seg₁) :: rest, by simp, ?_, ?_, ?_, hOK'.2⟩
          · rw [intercalate_eq_append_segCont] at hseq' ⊢
            rw [List.cons_append, ← hseq']
          · rw [replF_cons, if_neg (fun hc => hnm
              (List.isPrefixOf_iff_prefix.mp hc.2)), hout']
            rw [intercalate_eq_append_segCont, intercalate_eq_append_segCont,
              List.cons_append]
          · intro s₂ hsuf hne
            rw [List.suffix_cons_iff] at hsuf
            rcases hsuf with rfl | hsuf
            · rw [List.cons_append]
              intro hp
              apply hnm
              rw [intercalate_eq_append_segCont] at hseq'
              rw [hseq']
              exact hp
            · exact hOK'.1 s₂ hsuf hne

theorem not_infix_of_isSubL_false {a s : List Char} (h : isSubL a s = false) :
    ¬ a <:+: s := by
  intro hinf
  have := (isSubL_infix_iff a s).mpr hinf
  rw [h] at this
  exact Bool.noConfusion this

theorem selfOK_spec (k e : List Char) (h : selfOK k e = true) :
    ¬ k <:+: e ∧ ¬ e <:+: k ∧
    (∀ v, v <:+ k → v ≠ [] → v <+: e → v <+: k) ∧
    (∀ u, u <+: k → u ≠ [] → u ≠ k → ¬ u <:+ e) := by
  unfold selfOK at h
  simp only [Bool.and_eq_true, Bool.not_eq_true', List.all_eq_true] at h
  obtain ⟨⟨⟨h1, h2⟩, h3⟩, h4⟩ := h
  refine ⟨not_infix_of_isSubL_false h1, not_infix_of_isSubL_false h2, ?_, ?_⟩
  · intro v hv hne hpre
    obtain ⟨p, hp⟩ := hv
    have hvd : k.drop p.length = v := by rw [← hp, List.drop_left]
    have hip : p.length ∈ List.range (k.length + 1) := by
      rw [List.mem_range]
      have hl := congrArg List.length hp
      simp only [List.length_append] at hl
      omega
    have h3' := h3 p.length hip
    simp only [] at h3'
    rw [hvd] at h3'
    simp only [Bool.or_eq_true, Bool.not_eq_true', Bool.and_eq_false_iff,
      decide_eq_false_iff_not, not_not, List.isPrefixOf_iff_prefix] at h3'
    rcases h3' with (hc | hc) | hc
    · exact absurd hc hne
    · rw [← List.isPrefixOf_iff_prefix] at hpre
      rw [hpre] at hc
      exact absurd hc (by simp)
    · exact hc
  · intro u hu hne hnek hsuf
    obtain ⟨r, hr⟩ := hu
    have hut : k.take u.length = u := by rw [← hr, List.take_left]
    have hil : u.length ∈ List.range' 1 (k.length - 1) := by
      rw [List.mem_range'_1]
      have hl := congrArg List.length hr
      simp only [List.length_append] at hl
      have h0 : 0 < u.length := List.length_pos.mpr hne
      have hrne : r ≠ [] := by
        intro h0'
        subst h0'
        rw [List.append_nil] at hr
        exact hnek hr
      have h0r : 0 < r.length := List.length_pos.mpr hrne
      omega
    have h4' := h4 u.length hil
    simp only [Bool.not_eq_true'] at h4'
    rw [hut] at h4'
    have := List.isSuffixOf_iff_suffix.mpr hsuf
    rw [h4'] at this
    exact Bool.noConfusion this

theorem crossOK_spec (a k e : List Char) (h : crossOK a k e = true) :
    ¬ a <:+: e ∧ ¬ e <:+: a ∧
    (∀ v, v <:+ a → v ≠ [] → v <+: e → v <+: k) ∧
    (∀ u, u <+: a → u ≠ [] → u <:+ e → u <:+ k) := by
  unfold crossOK at h
  simp only [Bool.and_eq_true, Bool.not_eq_true', List.all_eq_true] at h
  obtain ⟨⟨⟨h1, h2⟩, h3⟩, h4⟩ := h
  refine ⟨not_infix_of_isSubL_false h1, not_infix_of_isSubL_false h2, ?_, ?_⟩
  · intro v hv hne hpre
    obtain ⟨p, hp⟩ := hv
    have hvd : a.drop p.length = v := by rw [← hp, List.drop_left]
    have hip : p.length ∈ List.range (a.length + 1) := by
      rw [List.mem_range]
      have hl := congrArg List.length hp
      simp only [List.length_append] at hl
      omega
    have h3' := h3 p.length hip
    simp only [] at h3'
    rw [hvd] at h3'
    simp only [Bool.or_eq_true, Bool.not_eq_true', Bool.and_eq_false_iff,
      decide_eq_false_iff_not, not_not, List.isPrefixOf_iff_prefix] at h3'
    rcases h3' with (hc | hc) | hc
    · exact absurd hc hne
    · rw [← List.isPrefixOf_iff_prefix] at hpre
      rw [hpre] at hc
      exact absurd hc (by simp)
    · exact hc
  · intro u hu hne hsuf
    obtain ⟨r, hr⟩ := hu
    have hut : a.take u.length = u := by rw [← hr, List.take_left]
    have hip : u.length ∈ List.range (a.length + 1) := by
      rw [List.mem_range]
      have hl := congrArg List.length hr
      simp only [List.length_append] at hl
      omega
    have h4' := h4 u.length hip
    simp only [] at h4'
    rw [hut] at h4'
    simp only [Bool.or_eq_true, Bool.not_eq_true', Bool.and_eq_false_iff,
      decide_eq_false_iff_not, not_not, List.isSuffixOf_iff_suffix] at h4'
    rcases h4' with (hc | hc) | hc
    · exact absurd hc hne
    · have := List.isSuffixOf_iff_suffix.mpr hsuf
      rw [hc] at this
      exact Bool.noConfusion this
    · exact hc

theorem pfx_transfer (a k e : List Char) (hsubEA : ¬ e <:+: a)
    (hcondv : ∀ v, v <:+ a → v ≠ [] → v <+: e → v <+: k) :
    ∀ (segs : List (List Char)) (v : List Char), v <:+ a →
      v <+: List.intercalate e segs → v <+: List.intercalate k segs := by
  intro segs
  induction segs with
  | nil =>
    intro v _ h
    exact h
  | cons seg rest ih =>
    intro v hva hpre
    by_cases hr : rest = []
    · subst hr
      rw [intercalate_single] at hpre ⊢
      exact hpre
    · rw [intercalate_cons_ne e seg rest hr] at hpre
      rw [intercalate_cons_ne k seg rest hr]
      rcases prefix_split v seg _ hpre with h1 | ⟨w, hw, h2⟩
      · exact h1.trans (List.prefix_append seg _)
      · rcases prefix_split w e _ h2 with h3 | ⟨w', hw', h4⟩
        · by_cases hwne : w = []
          · subst hwne
            rw [List.append_nil] at hw
            exact hw ▸ List.prefix_append seg _
          · have hwa : w <:+ a := by
              obtain ⟨p, hp⟩ := hva
              exact ⟨p ++ seg, by rw [← hp, hw]; simp [List.append_assoc]⟩
            have hwk : w <+: k := hcondv w hwa hwne h3
            rw [hw]
            exact prefix_append_left seg (hwk.trans (List.prefix_append k _))
        · exfalso
          apply hsubEA
          have hwa : w <:+ a := by
            obtain ⟨p, hp⟩ := hva
            exact ⟨p ++ seg, by rw [← hp, hw]; simp [List.append_assoc]⟩
          have hew : e <+: w := hw' ▸ List.prefix_append e w'
          exact hew.isInfix.trans hwa.isInfix

theorem cross_inter (a k e : List Char)
    (hae : ¬ a <:+: e) (hea : ¬ e <:+: a)
    (hcondv : ∀ v, v <:+ a → v ≠ [] → v <+: e → v <+: k)
    (hcondu : ∀ u, u <+: a → u ≠ [] → u <:+ e → u <:+ k) :
    ∀ segs, ¬ a <:+: List.intercalate k segs →
      ¬ a <:+: List.intercalate e segs := by
  intro segs
  induction segs with
  | nil =>
    intro h hh
    exact h hh
  | cons seg rest ih =>
    intro habs hinf
    by_cases hr : rest = []
    · subst hr
      rw [intercalate_single] at hinf
      rw [intercalate_single] at habs
      exact habs hinf
    · rw [intercalate_cons_ne e seg rest hr] at hinf
      rw [intercalate_cons_ne k seg rest hr] at habs
      rcases infix_append_split a seg _ hinf with h1 | h2 |
        ⟨a₁, a₂, ha12, hne1, hne2, hs1, hp2⟩
      · exact habs (h1.trans (List.prefix_append seg _).isInfix)
      · rcases infix_append_split a e _ h2 with h3 | h4 |
          ⟨b₁, b₂, hb12, hbne1, hbne2, hbs1, hbp2⟩
        · exact hae h3
        · refine ih ?_ h4
          intro hkk
          have h' : a <:+: (seg ++ k) ++ List.intercalate k rest :=
            hkk.trans (List.suffix_append _ _).isInfix
          rw [List.append_assoc] at h'
          exact habs h'
        · have hb1a : b₁ <+: a := hb12 ▸ List.prefix_append b₁ b₂
          have hb1k : b₁ <:+ k := hcondu b₁ hb1a hbne1 hbs1
          have hb2a : b₂ <:+ a := hb12 ▸ List.suffix_append b₁ b₂
          have hb2k : b₂ <+: List.intercalate k rest :=
            pfx_transfer a k e hea hcondv rest b₂ hb2a hbp2
          have h' : a <:+: k ++ List.intercalate k rest :=
            hb12 ▸ sfx_pfx_glue b₁ b₂ k _ hb1k hb2k
          exact habs (h'.trans
            (List.suffix_append seg (k ++ List.intercalate k rest)).isInfix)
      · rcases prefix_split a₂ e _ hp2 with h5 | ⟨w', hw', h6⟩
        · have ha2a : a₂ <:+ a := ha12 ▸ List.suffix_append a₁ a₂
          have ha2k : a₂ <+: k := hcondv a₂ ha2a hne2 h5
          have h' : a <:+: seg ++ k :=
            ha12 ▸ sfx_pfx_glue a₁ a₂ seg k hs1 ha2k
          exact habs (h'.trans
            (prefix_append_left seg (List.prefix_append k _)).isInfix)
        · exfalso
          apply hea
          have hea2 : e <+: a₂ := hw' ▸ List.prefix_append e w'
          have ha2a : a₂ <:+ a := ha12 ▸ List.suffix_append a₁ a₂
          exact hea2.isInfix.trans ha2a.isInfix

theorem replC_cross (a k e s : List Char) (hk : k ≠ [])
    (hcross : crossOK a k e = true) (habs : ¬ a <:+: s) :
    ¬ a <:+: replC k e s := by
  obtain ⟨hae, hea, hcv, hcu⟩ := crossOK_spec a k e hcross
  obtain ⟨segs, hsne, hseq, hout, hOK⟩ := replF_struct k e hk s.length s le_rfl
  rw [replC, hout]
  exact cross_inter a k e hae hea hcv hcu segs (hseq ▸ habs)

theorem self_inter (k e : List Char) (hk : k ≠ [])
    (hke : ¬ k <:+: e) (hek : ¬ e <:+: k)
    (hcondv : ∀ v, v <:+ k → v ≠ [] → v <+: e → v <+: k)
    (hcondu : ∀ u, u <+: k → u ≠ [] → u ≠ k → ¬ u <:+ e) :
    ∀ segs, SegsOK k segs → ¬ k <:+: List.intercalate e segs := by
  intro segs
  induction segs with
  | nil =>
    intro _ hinf
    exact hk (List.infix_nil.mp hinf)
  | cons seg rest ih =>
    intro hOK hinf
    by_cases hr : rest = []
    · subst hr
      rw [intercalate_single] at hinf
      obtain ⟨s₁, s₃, hseg⟩ := hinf
      have hsuf : k ++ s₃ <:+ seg := ⟨s₁, by rw [← List.append_assoc]; exact hseg⟩
      refine hOK.1 (k ++ s₃) hsuf (by simp [hk]) ?_
      rw [show segCont k ([] : List (List Char)) = [] from by simp [segCont],
        List.append_nil]
      exact List.prefix_append k s₃
    · rw [intercalate_cons_ne e seg rest hr] at hinf
      rcases infix_append_split k seg _ hinf with h1 | h2 |
        ⟨k₁, k₂, hk12, hkne1, hkne2, hks1, hkp2⟩
      · obtain ⟨s₁, s₃, hseg⟩ := h1
        have hsuf : k ++ s₃ <:+ seg :=
          ⟨s₁, by rw [← List.append_assoc]; exact hseg⟩
        refine hOK.1 (k ++ s₃) hsuf (by simp [hk]) ?_
        rw [List.append_assoc]
        exact List.prefix_append k _
      · rcases infix_append_split k e _ h2 with h3 | h4 |
          ⟨k₁, k₂, hk12, hkne1, hkne2, hks1, hkp2⟩
        · exact hke h3
        · exact ih hOK.2 h4
        · have hk1p : k₁ <+: k := hk12 ▸ List.prefix_append k₁ k₂
          have hk1nek : k₁ ≠ k := by
            intro he
            rw [he] at hk12
            have hlen := congrArg List.length hk12
            simp only [List.length_append] at hlen
            exact hkne2 (List.eq_nil_of_length_eq_zero (by omega))
          exact hcondu k₁ hk1p hkne1 hk1nek hks1
      · rcases prefix_split k₂ e _ hkp2 with h5 | ⟨w', hw', h6⟩
        · have hk2s : k₂ <:+ k := hk12 ▸ List.suffix_append k₁ k₂
          have hk2k : k₂ <+: k := hcondv k₂ hk2s hkne2 h5
          refine hOK.1 k₁ hks1 hkne1 ?_
          rw [show segCont k rest = k ++ List.intercalate k rest from by
            simp [segCont, hr]]
          obtain ⟨t, ht⟩ := hk2k.trans (List.prefix_append k (List.intercalate k rest))
          refine ⟨t, ?_⟩
          rw [← ht, ← List.append_assoc, ← hk12]
        · exfalso
          apply hek
          have hek2 : e <+: k₂ := hw' ▸ List.prefix_append e w'
          have hk2s : k₂ <:+ k := hk12 ▸ List.suffix_append k₁ k₂
          exact hek2.isInfix.trans hk2s.isInfix

theorem replC_self (k e s : List Char) (hk : k ≠ [])
    (hself : selfOK k e = true) : ¬ k <:+: replC k e s := by
  obtain ⟨hke, hek, hcv, hcu⟩ := selfOK_spec k e hself
  obtain ⟨segs, hsne, hseq, hout, hOK⟩ := replF_struct k e hk s.length s le_rfl
  rw [replC, hout]
  exact self_inter k e hk hke hek hcv hcu segs hOK

theorem stepOK_spec (p : String × String) (done : List String)
    (h : stepOK p done = true) :
    p.1.data ≠ [] ∧
    ((selfOK p.1.data p.2.data = true ∧
        ∀ a ∈ done, crossOK a.data p.1.data p.2.data = true) ∨
      ∃ a ∈ done, isSubL a.data p.1.data = true) := by
  unfold stepOK at h
  simp only [Bool.and_eq_true, Bool.or_eq_true, List.all_eq_true,
    List.any_eq_true, decide_eq_true_eq] at h
  exact h

theorem fold_keyfree :
    ∀ (table : List (String × String)) (done : List String) (s : List Char),
      tableOK table done = true →
      (∀ a ∈ done, ¬ a.data <:+: s) →
      ∀ a, (a ∈ done ∨ a ∈ table.map Prod.fst) →
        ¬ a.data <:+:
          table.foldl (fun t p => replC p.1.data p.2.data t) s := by
  intro table
  induction table with
  | nil =>
    intro done s _ hdone a ha
    rcases ha with h | h
    · exact hdone a h
    · simp at h
  | cons p rest ih =>
    intro done s htab hdone a ha
    rw [List.foldl_cons]
    have htab2 : (stepOK p done && tableOK rest (done ++ [p.1])) = true := htab
    rw [Bool.and_eq_true] at htab2
    obtain ⟨hstep, hrest⟩ := htab2
    obtain ⟨hkne, halt⟩ := stepOK_spec p done hstep
    have hdone' : ∀ b ∈ done ++ [p.1],
        ¬ b.data <:+: replC p.1.data p.2.data s := by
      rcases halt with ⟨hself, hcross⟩ | ⟨b0, hb0, hsubst⟩
      · intro b hb
        rcases List.mem_append.mp hb with hb | hb
        · exact replC_cross b.data p.1.data p.2.data s hkne (hcross b hb)
            (hdone b hb)
        · rw [List.mem_singleton] at hb
          subst hb
          exact replC_self p.1.data p.2.data s hkne hself
      · have habs : ¬ p.1.data <:+: s := by
          intro hocc
          exact hdone b0 hb0 (((isSubL_infix_iff _ _).mp hsubst).trans hocc)
        have hid : replC p.1.data p.2.data s = s := replC_id _ _ _ habs
        intro b hb
        rw [hid]
        rcases List.mem_append.mp hb with hb | hb
        · exact hdone b hb
        · rw [List.mem_singleton] at hb
          subst hb
          exact habs
    refine ih (done ++ [p.1]) (replC p.1.data p.2.data s) hrest hdone' a ?_
    rcases ha with h | h
    · exact Or.inl (List.mem_append_left _ h)
    · rw [List.map_cons, List.mem_cons] at h
      rcases h with h | h
      · exact Or.inl (List.mem_append_right _
          (by rw [h]; exact List.mem_singleton.mpr rfl))
      · exact Or.inr h

theorem expandL_keyfree (s : List Char) :
    ∀ p ∈ CONTRACTIONS, ¬ p.1.data <:+: expandL s := by
  intro p hp
  exact fold_keyfree CONTRACTIONS [] s (by decide) (by simp) p.1
    (Or.inr (List.mem_map.mpr ⟨p, hp, rfl⟩))

theorem expandL_id (s : List Char)
    (h : ∀ p ∈ CONTRACTIONS, ¬ p.1.data <:+: s) : expandL s = s := by
  unfold expandL
  have : ∀ (table : List (String × String)),
      (∀ p ∈ table, ¬ p.1.data <:+: s) →
      table.foldl (fun t p => replC p.1.data p.2.data t) s = s := by
    intro table
    induction table with
    | nil => intro _; rfl
    | cons p rest ih =>
      intro hall
      rw [List.foldl_cons, replC_id _ _ _ (hall p (List.mem_cons_self p rest))]
      exact ih fun q hq => hall q (List.mem_cons_of_mem p hq)
  exact this CONTRACTIONS h

theorem collapseAux_cons (b : Bool) (c : Char) (cs : List Char) :
    collapseAux b (c :: cs) =
      if isWsC c then
        (if b then collapseAux true cs else ' ' :: collapseAux true cs)
      else c :: collapseAux false cs := rfl

theorem lowerL_id (s : List Char) (h : ∀ c ∈ s, lowerC c = c) :
    lowerL s = s := by
  unfold lowerL
  induction s with
  | nil => rfl
  | cons c cs ih =>
    rw [List.map_cons, h c (List.mem_cons_self c cs),
      ih fun d hd => h d (List.mem_cons_of_mem c hd)]

theorem collapse_id (s : List Char)
    (hsp : ∀ c ∈ s, isWsC c = true → c = ' ')
    (hch : List.Chain' (fun a b => ¬(isWsC a = true ∧ isWsC b = true)) s) :
    collapseAux false s = s ∧
      ((∀ c, s.head? = some c → isWsC c = false) → collapseAux true s = s) := by
  induction s with
  | nil => exact ⟨rfl, fun _ => rfl⟩
  | cons c cs ih =>
    obtain ⟨ih1, ih2⟩ := ih
      (fun d hd => hsp d (List.mem_cons_of_mem c hd)) hch.tail
    constructor
    · by_cases hw : isWsC c = true
      · have hc : c = ' ' := hsp c (List.mem_cons_self c cs) hw
        have hhd : ∀ d, cs.head? = some d → isWsC d = false := by
          intro d hd
          have hr := (List.chain'_cons'.mp hch).1 d hd
          by_contra hdd
          rw [Bool.not_eq_false] at hdd
          exact hr ⟨hw, hdd⟩
        rw [collapseAux_cons, if_pos hw, if_neg (by simp), ih2 hhd, hc]
      · rw [collapseAux_cons, if_neg hw, ih1]
    · intro hhd
      have hw : isWsC c = false := hhd c rfl
      rw [collapseAux_cons, if_neg (by simp [hw]), ih1]

theorem collapseL_id (s : List Char)
    (hsp : ∀ c ∈ s, isWsC c = true → c = ' ')
    (hch : List.Chain' (fun a b => ¬(isWsC a = true ∧ isWsC b = true)) s) :
    collapseL s = s :=
  (collapse_id s hsp hch).1

theorem dropWhile_head_false (p : Char → Bool) :
    ∀ (l : List Char) (c : Char), (l.dropWhile p).head? = some c →
      p c = false := by
  intro l
  induction l with
  | nil => intro c hc; exact absurd hc (by simp)
  | cons d t ih =>
    intro c hc
    rw [List.dropWhile_cons] at hc
    by_cases hd : p d = true
    · rw [if_pos hd] at hc
      exact ih c hc
    · rw [if_neg hd] at hc
      injection hc with hc
      subst hc
      exact Bool.eq_false_iff.mpr hd

theorem punctStripL_id (s : List Char)
    (h : ∀ c, s.getLast? = some c → isPunctC c = false) :
    punctStripL s = s := by
  unfold punctStripL
  cases hs : s.reverse with
  | nil =>
    rw [List.dropWhile_nil, ← hs, List.reverse_reverse]
  | cons c t =>
    have hc : isPunctC c = false := by
      apply h
      rw [← List.head?_reverse, hs]
      rfl
    have e : List.dropWhile isPunctC (c :: t) = c :: t := by
      rw [List.dropWhile_cons, if_neg (by simp [hc])]
    rw [e, ← hs, List.reverse_reverse]

theorem punctStripL_lastNotPunct (s : List Char) :
    ∀ c, (punctStripL s).getLast? = some c → isPunctC c = false := by
  intro c hc
  unfold punctStripL at hc
  rw [List.getLast?_reverse] at hc
  exact dropWhile_head_false isPunctC s.reverse c hc

theorem punctStripL_isPfx (s : List Char) : punctStripL s <+: s := by
  unfold punctStripL
  have h1 : s.reverse.dropWhile isPunctC <:+ s.reverse :=
    List.dropWhile_suffix _
  have h2 := h1.reverse
  rwa [List.reverse_reverse] at h2

theorem stripL_subset (s : List Char) : ∀ c ∈ stripL s, c ∈ s := by
  intro c hc
  unfold stripL at hc
  rw [List.mem_reverse] at hc
  have h1 := (List.dropWhile_suffix (l := (s.dropWhile isWsC).reverse)
    (p := isWsC)).subset hc
  rw [List.mem_reverse] at h1
  exact (List.dropWhile_suffix (l := s) (p := isWsC)).subset h1

theorem collapse_mem : ∀ (b : Bool) (s : List Char) (c : Char),
    c ∈ collapseAux b s → c ∈ s ∨ c = ' ' := by
  intro b s
  induction s generalizing b with
  | nil => intro c hc; exact absurd hc (by simp [collapseAux])
  | cons d t ih =>
    intro c hc
    rw [collapseAux_cons] at hc
    by_cases hd : isWsC d = true
    · rw [if_pos hd] at hc
      cases b with
      | true =>
        rcases ih true c (by simpa using hc) with h | h
        · exact Or.inl (List.mem_cons_of_mem d h)
        · exact Or.inr h
      | false =>
        simp only [if_neg (by simp : ¬(false = true))] at hc
        rcases List.mem_cons.mp hc with rfl | hc2
        · exact Or.inr rfl
        · rcases ih true c hc2 with h | h
          · exact Or.inl (List.mem_cons_of_mem d h)
          · exact Or.inr h
    · rw [if_neg hd] at hc
      rcases List.mem_cons.mp hc with rfl | hc2
      · exact Or.inl (List.mem_cons_self c t)
      · rcases ih false c hc2 with h | h
        · exact Or.inl (List.mem_cons_of_mem d h)
        · exact Or.inr h

theorem collapse_wsSpace : ∀ (b : Bool) (s : List Char) (c : Char),
    c ∈ collapseAux b s → isWsC c = true → c = ' ' := by
  intro b s
  induction s generalizing b with
  | nil => intro c hc; exact absurd hc (by simp [collapseAux])
  | cons d t ih =>
    intro c hc hw
    rw [collapseAux_cons] at hc
    by_cases hd : isWsC d = true
    · rw [if_pos hd] at hc
      cases b with
      | true => exact ih true c (by simpa using hc) hw
      | false =>
        simp only [if_neg (by simp : ¬(false = true))] at hc
        rcases List.mem_cons.mp hc with rfl | hc2
        · rfl
        · exact ih true c hc2 hw
    · rw [if_neg hd] at hc
      rcases List.mem_cons.mp hc with rfl | hc2
      · rw [hw] at hd
        exact absurd rfl hd
      · exact ih false c hc2 hw

theorem collapse_chain : ∀ (s : List Char) (b : Bool),
    List.Chain' (fun a b => ¬(isWsC a = true ∧ isWsC b = true))
      (collapseAux b s) ∧
    (∀ c, (collapseAux true s).head? = some c → isWsC c = false) := by
  intro s
  induction s with
  | nil =>
    intro b
    constructor
    · cases b <;> exact List.chain'_nil
    · intro c hc
      exact absurd hc (by simp [collapseAux])
  | cons d t ih =>
    intro b
    constructor
    · by_cases hd : isWsC d = true
      · rw [collapseAux_cons, if_pos hd]
        cases b with
        | true => simpa using (ih true).1
        | false =>
          simp only [if_neg (by simp : ¬(false = true))]
          rw [List.chain'_cons']
          refine ⟨?_, (ih true).1⟩
          intro y hy hcon
          rw [(ih true).2 y hy] at hcon
          exact Bool.noConfusion hcon.2
      · rw [collapseAux_cons, if_neg hd]
        rw [List.chain'_cons']
        refine ⟨?_, (ih false).1⟩
        intro y hy hcon
        rw [hcon.1] at hd
        exact hd rfl
    · intro c hc
      by_cases hd : isWsC d = true
      · rw [collapseAux_cons, if_pos hd, if_pos rfl] at hc
        exact (ih true).2 c hc
      · rw [collapseAux_cons, if_neg hd] at hc
        injection hc with hc
        subst hc
        rw [Bool.eq_false_iff]
        exact hd

theorem mem_intercalate_transfer (k e : List Char) :
    ∀ (segs : List (List Char)) (c : Char), c ∈ List.intercalate e segs →
      c ∈ List.intercalate k segs ∨ c ∈ e := by
  intro segs
  induction segs with
  | nil => intro c h; exact Or.inl h
  | cons seg rest ih =>
    intro c h
    by_cases hr : rest = []
    · subst hr
      rw [intercalate_single] at h ⊢
      exact Or.inl h
    · rw [intercalate_cons_ne e seg rest hr] at h
      rw [intercalate_cons_ne k seg rest hr]
      rcases List.mem_append.mp h with h1 | h2
      · exact Or.inl (List.mem_append_left _ h1)
      · rcases List.mem_append.mp h2 with h3 | h4
        · exact Or.inr h3
        · rcases ih c h4 with h5 | h6
          · exact Or.inl (List.mem_append_right _ (List.mem_append_right _ h5))
          · exact Or.inr h6

theorem intercalate_nil_iff (k e : List Char) (hk : k ≠ []) (he : e ≠ []) :
    ∀ (rest : List (List Char)), rest ≠ [] →
      (List.intercalate e rest = [] ↔ List.intercalate k rest = []) := by
  intro rest hne
  cases rest with
  | nil => exact absurd rfl hne
  | cons b r =>
    cases r with
    | nil => rw [intercalate_single, intercalate_single]
    | cons b2 r2 =>
      rw [interCons, interCons]
      simp [he, hk]

theorem chain_intercalate_transfer (k e : List Char) (hene : e ≠ [])
    (hech : List.Chain' (fun a b => ¬(isWsC a = true ∧ isWsC b = true)) e)
    (hehd : ∀ c, e.head? = some c → isWsC c = false)
    (helst : ∀ c, e.getLast? = some c → isWsC c = false) :
    ∀ segs,
      List.Chain' (fun a b => ¬(isWsC a = true ∧ isWsC b = true))
        (List.intercalate k segs) →
      List.Chain' (fun a b => ¬(isWsC a = true ∧ isWsC b = true))
        (List.intercalate e segs) := by
  intro segs
  induction segs with
  | nil => intro h; exact List.chain'_nil
  | cons seg rest ih =>
    intro h
    by_cases hr : rest = []
    · subst hr
      rw [intercalate_single] at h ⊢
      exact h
    · rw [intercalate_cons_ne k seg rest hr] at h
      rw [intercalate_cons_ne e seg rest hr]
      rw [List.chain'_append] at h
      obtain ⟨hseg, hrest0, _⟩ := h
      rw [List.chain'_append] at hrest0
      obtain ⟨_, hIk, _⟩ := hrest0
      rw [List.chain'_append]
      refine ⟨hseg, ?_, ?_⟩
      · rw [List.chain'_append]
        refine ⟨hech, ih hIk, ?_⟩
        intro x hx y _
        intro hcon
        rw [helst x hx] at hcon
        exact Bool.noConfusion hcon.1
      · intro x _ y hy
        intro hcon
        cases he : e with
        | nil => exact hene he
        | cons ec et =>
          rw [he] at hy
          rw [List.cons_append, List.head?_cons] at hy
          injection hy with hy
          subst hy
          have hec := hehd ec (by rw [he]; rfl)
          rw [hec] at hcon
          exact Bool.noConfusion hcon.2

theorem getLast_intercalate_transfer (k e : List Char) (hk : k ≠ [])
    (hene : e ≠ []) (P : Char → Prop)
    (hPe : ∀ c, e.getLast? = some c → P c) :
    ∀ segs, (∀ c, (List.intercalate k segs).getLast? = some c → P c) →
      ∀ c, (List.intercalate e segs).getLast? = some c → P c := by
  intro segs
  induction segs with
  | nil => intro h c hc; exact h c hc
  | cons seg rest ih =>
    intro h c hc
    by_cases hr : rest = []
    · subst hr
      rw [intercalate_single] at hc
      rw [intercalate_single] at h
      exact h c hc
    · rw [intercalate_cons_ne e seg rest hr] at hc
      by_cases hIe : List.intercalate e rest = []
      · have hIk : List.intercalate k rest = [] :=
          (intercalate_nil_iff k e hk hene rest hr).mp hIe
        rw [List.getLast?_append_of_ne_nil seg
            (show e ++ List.intercalate e rest ≠ [] from by simp [hene]),
          hIe, List.append_nil] at hc
        exact hPe c hc
      · rw [List.getLast?_append_of_ne_nil seg
            (show e ++ List.intercalate e rest ≠ [] from by simp [hIe]),
          List.getLast?_append_of_ne_nil e hIe] at hc
        refine ih ?_ c hc
        intro d hd
        apply h
        have hIk : List.intercalate k rest ≠ [] := by
          intro h0
          exact hIe ((intercalate_nil_iff k e hk hene rest hr).mpr h0)
        rw [intercalate_cons_ne k seg rest hr,
          List.getLast?_append_of_ne_nil seg
            (show k ++ List.intercalate k rest ≠ [] from by simp [hIk]),
          List.getLast?_append_of_ne_nil k hIk]
        exact hd


theorem option_all_decode {f : Char → Bool} {o : Option Char}
    (h : o.all f = true) : ∀ c, o = some c → f c = true := by
  intro c hc
  subst hc
  exact h

theorem chainWsB_chain : ∀ l, chainWsB l = true →
    List.Chain' (fun a b => ¬(isWsC a = true ∧ isWsC b = true)) l := by
  intro l
  induction l with
  | nil => intro _; exact List.chain'_nil
  | cons a t ih =>
    intro h
    cases t with
    | nil => exact List.chain'_singleton a
    | cons b t2 =>
      have h2 : (!(isWsC a && isWsC b) && chainWsB (b :: t2)) = true := h
      rw [Bool.and_eq_true, Bool.not_eq_true', Bool.and_eq_false_iff] at h2
      refine List.chain'_cons.mpr ⟨?_, ih h2.2⟩
      rintro ⟨ha, hb⟩
      rcases h2.1 with hc | hc
      · rw [ha] at hc
        exact Bool.noConfusion hc
      · rw [hb] at hc
        exact Bool.noConfusion hc

theorem entryOK_spec (p : String × String) (h : entryOK p = true) :
    p.1.data ≠ [] ∧ p.2.data ≠ [] ∧
    (∀ c ∈ p.2.data, isWsC c = true → c = ' ') ∧
    List.Chain' (fun a b => ¬(isWsC a = true ∧ isWsC b = true)) p.2.data ∧
    (∀ c, p.2.data.head? = some c → isWsC c = false) ∧
    (∀ c, p.2.data.getLast? = some c → isWsC c = false) ∧
    (∀ c ∈ p.2.data, lowerC c = c) ∧
    (∀ c, p.2.data.getLast? = some c → isPunctC c = false) := by
  unfold entryOK at h
  rw [Bool.and_eq_true, Bool.and_eq_true, Bool.and_eq_true, Bool.and_eq_true,
    Bool.and_eq_true, Bool.and_eq_true, Bool.and_eq_true] at h
  obtain ⟨⟨⟨⟨⟨⟨⟨h1, h2⟩, h3⟩, h4⟩, h5⟩, h6⟩, h7⟩, h8⟩ := h
  refine ⟨?_, ?_, ?_, chainWsB_chain _ h4, ?_, ?_, ?_, ?_⟩
  · simpa using h1
  · simpa using h2
  · intro c hc hw
    have := List.all_eq_true.mp h3 c hc
    rw [Bool.or_eq_true, Bool.not_eq_true', beq_iff_eq] at this
    rcases this with hh | hh
    · rw [hw] at hh
      exact Bool.noConfusion hh
    · exact hh
  · intro c hc
    have := option_all_decode h5 c hc
    rwa [Bool.not_eq_true'] at this
  · intro c hc
    have := option_all_decode h6 c hc
    rwa [Bool.not_eq_true'] at this
  · intro c hc
    have := List.all_eq_true.mp h7 c hc
    rwa [beq_iff_eq] at this
  · intro c hc
    have := option_all_decode h8 c hc
    rwa [Bool.not_eq_true'] at this

theorem replC_preserve (k e s : List Char) (hk : k ≠ []) (hene : e ≠ [])
    (hesp : ∀ c ∈ e, isWsC c = true → c = ' ')
    (hech : List.Chain' (fun a b => ¬(isWsC a = true ∧ isWsC b = true)) e)
    (hehd : ∀ c, e.head? = some c → isWsC c = false)
    (helst : ∀ c, e.getLast? = some c → isWsC c = false)
    (helow : ∀ c ∈ e, lowerC c = c)
    (hepct : ∀ c, e.getLast? = some c → isPunctC c = false)
    (hinv : NormInv s) : NormInv (replC k e s) := by
  obtain ⟨segs, _, hseq, hout, _⟩ := replF_struct k e hk s.length s le_rfl
  rw [replC, hout]
  obtain ⟨h1, h2, h3, h4⟩ := hinv
  rw [hseq] at h1 h2 h3 h4
  refine ⟨?_, ?_, ?_, ?_⟩
  · intro c hc hw
    rcases mem_intercalate_transfer k e segs c hc with hm | hm
    · exact h1 c hm hw
    · exact hesp c hm hw
  · exact chain_intercalate_transfer k e hene hech hehd helst segs h2
  · intro c hc
    rcases mem_intercalate_transfer k e segs c hc with hm | hm
    · exact h3 c hm
    · exact helow c hm
  · exact getLast_intercalate_transfer k e hk hene _ hepct segs h4

theorem expand_preserve (s : List Char) (hinv : NormInv s) :
    NormInv (expandL s) := by
  have main : ∀ (table : List (String × String)) (t : List Char),
      (∀ p ∈ table, entryOK p = true) → NormInv t →
      NormInv (table.foldl (fun u p => replC p.1.data p.2.data u) t) := by
    intro table
    induction table with
    | nil => intro t _ h; exact h
    | cons p rest ih =>
      intro t hall hinv2
      rw [List.foldl_cons]
      obtain ⟨h1, h2, h3, h4, h5, h6, h7, h8⟩ :=
        entryOK_spec p (hall p (List.mem_cons_self p rest))
      exact ih _ (fun q hq => hall q (List.mem_cons_of_mem p hq))
        (replC_preserve p.1.data p.2.data t h1 h2 h3 h4 h5 h6 h7 h8 hinv2)
  exact main CONTRACTIONS s (by decide) hinv

theorem z_inv (x : List Char) :
    NormInv (punctStripL (collapseL (stripL (lowerL x)))) := by
  have hwsp : ∀ c ∈ collapseL (stripL (lowerL x)), isWsC c = true → c = ' ' :=
    fun c hc => collapse_wsSpace false _ c hc
  have hwch := (collapse_chain (stripL (lowerL x)) false).1
  have hple := punctStripL_isPfx (collapseL (stripL (lowerL x)))
  refine ⟨?_, ?_, ?_, punctStripL_lastNotPunct _⟩
  · exact fun c hc => hwsp c (hple.subset hc)
  · exact hwch.prefix hple
  · intro c hc
    rcases collapse_mem false _ c (hple.subset hc) with hm | hm
    · have hmem := stripL_subset _ c hm
      obtain ⟨d, _, rfl⟩ := List.mem_map.mp hmem
      exact lowerC_idem d
    · subst hm
      decide

theorem ppL_ne (s : List Char) (h : s ≠ []) :
    ppL s = expandL (punctStripL (collapseL (stripL (lowerL s)))) := by
  unfold ppL
  rw [if_neg h]

theorem ppL_inv (x : List Char) :
    NormInv (ppL x) ∧ ∀ p ∈ CONTRACTIONS, ¬ p.1.data <:+: ppL x := by
  by_cases hx : x = []
  · subst hx
    rw [show ppL [] = [] from rfl]
    refine ⟨⟨fun c hc => absurd hc (List.not_mem_nil c), List.chain'_nil,
      fun c hc => absurd hc (List.not_mem_nil c), fun c hc => by simp at hc⟩,
      ?_⟩
    intro p hp
    have hne : p.1.data ≠ [] := by
      revert p
      decide
    intro hinf
    exact hne (List.infix_nil.mp hinf)
  · rw [ppL_ne x hx]
    exact ⟨expand_preserve _ (z_inv x), expandL_keyfree _⟩

theorem ppL_idem (x : List Char) (h : stripL (ppL x) = ppL x) :
    ppL (ppL x) = ppL x := by
  obtain ⟨⟨h1, h2, h3, h4⟩, hkf⟩ := ppL_inv x
  by_cases hy : ppL x = []
  · rw [hy]
    rfl
  · rw [ppL_ne (ppL x) hy, lowerL_id _ h3, h, collapseL_id _ h1 h2,
      punctStripL_id _ h4, expandL_id _ hkf]

/-- C8 counterexample: the normalizer is not idempotent: stripping the
trailing `[.!?]+` run can expose a trailing space that only the second
pass's `strip()` removes, so `preprocess_text "hi ." = "hi "` while
`preprocess_text "hi " = "hi"`. -/
theorem c8_counterexample :
    preprocess_text (preprocess_text "hi .") ≠ preprocess_text "hi ." := by
  decide

/-- C8 (amended): the normalizer is idempotent on every input whose
normalized form is already whitespace-stripped (equivalently, whenever the
trailing-punctuation strip does not expose a trailing space): lower-casing,
whitespace collapsing and punctuation stripping fix the output by
construction, and the contraction pass leaves no key occurrence to expand
a second time. -/
theorem c8_amended (x : String)
    (h : stripL (preprocess_text x).data = (preprocess_text x).data) :
    preprocess_text (preprocess_text x) = preprocess_text x :=
  congrArg (fun l => (⟨l⟩ : String)) (ppL_idem x.data h)

/-- C8 witness: the amended idempotence at a concrete input exercising all
four stages. -/
theorem c8_witness :
    preprocess_text (preprocess_text "I'm  HAPPY!!") =
      preprocess_text "I'm  HAPPY!!" :=
  c8_amended "I'm  HAPPY!!" (by decide)
